import Mathlib

/-!
Verification of the SCRES route-search and algorithm-comparison engine.

The Python sources embedded here are `aas_pathfinder.py` and
`aas_comparison.py`.  The repository's `graph` and `a_star` modules
(classes `Graph`, `Node`, `AStar`) are imported by those files but are
not part of the available sources; the graph data structure is therefore
modelled from the specification (spec section 4.2 "Graph" and section 3
"Data Model").  All floating-point values are modelled as rationals or
reals; Python's `float("inf")` is modelled by `WithTop`.  Wall-clock
timings (`time.perf_counter`) are abstracted to `0`.  Randomness
(`random.randint`, `random.choice`, `random.sample`, `random.random`) is
modelled by oracle streams of draws; Python exceptions (`ValueError`,
`KeyError`) are modelled with `Except`.
-/

set_option maxHeartbeats 1000000

namespace SCRES

/-- Modelled from the spec: the `Node` class of the missing `graph` module.
Identity is the unique string name (spec section 3: "Two nodes are equal iff
their names are equal (name is the sole identity key)"); the payload is a
coordinate (made a type parameter `C`, it is never inspected by the
algorithms embedded here); a node "owns a list of (neighbor-node-reference,
edge-weight) pairs" — node references are modelled by node names, since the
name is the sole identity key.  `W` is the edge-weight type (a float in the
source). -/
structure Node (C W : Type) where
  value : String
  coords : C
  neighbors : List (String × W)
deriving DecidableEq

/-- Modelled from the spec: the `Graph` class of the missing `graph` module.
It "owns the set of all Nodes (keyed by name)"; modelled as a list of nodes
so that neighbor enumeration keeps insertion order (spec section 4.2). -/
structure Graph (C W : Type) where
  nodes : List (Node C W)
deriving DecidableEq

namespace Graph

variable {C W : Type}

/-- Modelled from the spec: the empty graph prior to any insertion. -/
def empty : Graph C W := ⟨[]⟩

/-- The names of the nodes of the graph. -/
def nodeNames (g : Graph C W) : List String := g.nodes.map (·.value)

/-- Modelled from the spec: `find_node(name)` "returns the node or a
'not found' signal" (spec section 4.2). -/
def find_node (g : Graph C W) (name : String) : Option (Node C W) :=
  g.nodes.find? (fun n => n.value == name)

/-- Modelled from the spec: `add_node(name, coordinate)` "inserts or
overwrites a node under a unique name; no edges are created"
(spec section 4.2). -/
def add_node (g : Graph C W) (n : Node C W) : Graph C W :=
  if g.nodes.any (fun m => m.value == n.value) then
    ⟨g.nodes.map (fun m => if m.value == n.value then n else m)⟩
  else
    ⟨g.nodes ++ [n]⟩

end Graph

/-- Modelled from the spec: recording one endpoint of an edge on a node,
"overwriting any prior weight between the same pair" (spec section 4.2);
a fresh neighbor is appended, preserving insertion order
(spec section 4.2 on `neighbors`). -/
def Node.setNeighbor {C W : Type} (n : Node C W) (b : String) (w : W) : Node C W :=
  if n.neighbors.any (fun p => p.1 == b) then
    { n with neighbors := n.neighbors.map (fun p => if p.1 == b then (b, w) else p) }
  else
    { n with neighbors := n.neighbors ++ [(b, w)] }

/-- Modelled from the spec: `add_edge(name_a, name_b, weight)` "fails
(reports an error, does not partially mutate) if either name is absent;
otherwise installs the edge symmetrically, overwriting any prior weight
between the same pair; self-edges (`name_a == name_b`) must be rejected"
(spec section 4.2).  Rejection leaves the graph unchanged. -/
def Graph.add_edge {C W : Type} (g : Graph C W) (a b : String) (w : W) : Graph C W :=
  if a == b then g
  else if (g.find_node a).isNone || (g.find_node b).isNone then g
  else
    ⟨g.nodes.map (fun n =>
      if n.value == a then n.setNeighbor b w
      else if n.value == b then n.setNeighbor a w
      else n)⟩

/-- Sum over all nodes of the length of the neighbor list (each undirected
edge is stored redundantly on both endpoints, so this is twice the number
of edges). -/
def Graph.totalNeighbors {C W : Type} (g : Graph C W) : ℕ :=
  (g.nodes.map (fun n => n.neighbors.length)).sum

/-- Number of undirected edges of the graph: half the sum of degrees. -/
def Graph.edgeCount {C W : Type} (g : Graph C W) : ℕ :=
  g.totalNeighbors / 2

/-! ### Geospatial distance (`aas_pathfinder.haversine`, lines 211-218)

Python floats and `math.sin`/`cos`/`sqrt`/`atan2` are modelled over the
real numbers.  (`math.sqrt` raises for negative arguments where
`Real.sqrt` returns `0`; in `haversine` the argument is non-negative for
all latitudes in the physical range.) -/

open Real in
/-- `math.radians`: degrees to radians. -/
noncomputable def radians (x : ℝ) : ℝ := x * (π / 180)

/-- `math.atan2 y x`, modelled as the argument of the complex number
`x + y i` (the standard two-argument arctangent). -/
noncomputable def atan2 (y x : ℝ) : ℝ := Complex.arg ⟨x, y⟩

/-- `haversine(lat1, lon1, lat2, lon2)` from `aas_pathfinder.py`
lines 211-218: great-circle distance in kilometres with mean Earth
radius 6371.0 km. -/
noncomputable def haversine (lat1 lon1 lat2 lon2 : ℝ) : ℝ :=
  let R : ℝ := 6371
  let phi1 := radians lat1
  let phi2 := radians lat2
  let dphi := radians (lat2 - lat1)
  let dlambda := radians (lon2 - lon1)
  let a := Real.sin (dphi / 2) ^ 2 +
    Real.cos phi1 * Real.cos phi2 * Real.sin (dlambda / 2) ^ 2
  2 * R * atan2 (Real.sqrt a) (Real.sqrt (1 - a))

/-! ### Complete-graph construction
(`aas_pathfinder.build_graph_from_aas`, lines 221-233) -/

/-- The ordered pairs requested by the nested loop
`for i, a in enumerate(names): for b in names[i+1:]` — every element with
each strictly later element. -/
def allPairs {α : Type} : List α → List (α × α)
  | [] => []
  | x :: xs => xs.map (fun y => (x, y)) ++ allPairs xs

/-- `build_graph_from_aas(coords)` from `aas_pathfinder.py` lines 221-233:
add a node per mapping entry, then request one edge per ordered pair of a
name with each later name, weighted by the haversine distance of the two
coordinates.  The Python `dict` is modelled as an association list whose
keys are distinct; `coords[a]` / `coords[b]` then yield exactly the pair
stored with the entry, so the nested loop is modelled over the entries
themselves. -/
noncomputable def build_graph_from_aas (coords : List (String × ℝ × ℝ)) :
    Graph (ℝ × ℝ) ℝ :=
  let g0 : Graph (ℝ × ℝ) ℝ :=
    coords.foldl (fun g e => g.add_node ⟨e.1, e.2, []⟩) Graph.empty
  (allPairs coords).foldl
    (fun g p => g.add_edge p.1.1 p.2.1 (haversine p.1.2.1 p.1.2.2 p.2.2.1 p.2.2.2))
    g0

/-! ### Path pricing (`path_distance`, identical in `aas_pathfinder.py`
lines 236-244 and `aas_comparison.py` lines 43-51) -/

/-- First-match lookup in an association list (`dict` membership /
first matching neighbor). -/
def lookupA {α : Type} (l : List (String × α)) (k : String) : Option α :=
  (l.find? (fun p => p.1 == k)).map (·.2)

/-- `path_distance(graph, path)`: for every consecutive pair `(a, b)` scan
`graph.find_node(a).neighbors` and add the weight of the first entry whose
name is `b` (`break` after the first match); a pair with no matching entry
adds nothing.  A name absent from the graph raises `AttributeError` in
Python (`None.neighbors`); the model adds nothing there — the claims only
concern paths whose names are present. -/
def path_distance {C W : Type} [AddCommMonoid W] (g : Graph C W)
    (path : List String) : W :=
  (path.zip path.tail).foldl
    (fun total p =>
      match g.find_node p.1 with
      | none => total
      | some node =>
        match node.neighbors.find? (fun q => q.1 == p.2) with
        | none => total
        | some q => total + q.2)
    0

/-! ### Dijkstra search (`aas_pathfinder.dijkstra_path`, lines 247-280, and
`aas_comparison.run_dijkstra`, lines 60-97)

The two sources share the same loop verbatim; `run_dijkstra` additionally
counts steps (one per finalized pop) and measures wall-clock time.  The
loop is embedded once, with the step counter; `dijkstra_path` discards it.

The `heapq` priority queue is modelled as a list from which the first
entry of minimal key is removed (`heappop`); `heappush` conses.  Python
breaks key ties by comparing the `Node` objects (behavior of the missing
`graph` module); the spec only requires tie-breaking to be deterministic
(spec section 4.3), which first-minimal extraction is.

The `while queue:` loop terminates because each iteration removes one
queue entry, a name is finalized (added to `visited`) at most once, and a
finalized node relaxes each of its stored neighbors at most once, so the
measure `u * (T + 1) + |queue|` strictly decreases, where `u` is the
number of graph names not yet visited and `T` the total stored neighbor
count.  The iteration count is therefore at most
`(|nodes| + 1) * (T + 1) + |queue|`; the loop is embedded structurally
with that bound as fuel, so the model runs the loop to completion exactly
as Python does. -/

/-- `heappop`, modelled as removal of the first minimal-key entry. -/
def popMin {W : Type} [LinearOrder W] :
    List (W × String) → Option ((W × String) × List (W × String))
  | [] => none
  | e :: rest =>
    match popMin rest with
    | none => some (e, [])
    | some (m, rest') => if e.1 ≤ m.1 then some (e, rest) else some (m, e :: rest')

variable {C : Type} {W : Type} [LinearOrderedAddCommMonoid W]

/-- The `while queue:` loop of `dijkstra_path` / `run_dijkstra`.  State:
queue of (tentative distance, name) entries, the `dist` and `prev`
dictionaries (modelled as association lists where a consed entry shadows
an older one), the `visited` set, and the step counter.  Returns the
final `dist`, `prev` and step count. -/
def dijkstraLoop (g : Graph C W) (goal : String) :
    ℕ → List (W × String) → List (String × W) → List (String × String) →
    List String → ℕ → List (String × W) × List (String × String) × ℕ
  | 0, _, dist, prev, _, steps => (dist, prev, steps)
  | fuel + 1, queue, dist, prev, visited, steps =>
    match popMin queue with
    | none => (dist, prev, steps)
    | some ((d, n), rest) =>
      if n ∈ visited then
        dijkstraLoop g goal fuel rest dist prev visited steps
      else if n = goal then
        (dist, prev, steps + 1)
      else
        let neighs := match g.find_node n with
          | some node => node.neighbors
          | none => []
        let st := neighs.foldl
          (fun (acc : List (W × String) × List (String × W) × List (String × String)) q =>
            let nd := d + q.2
            match lookupA acc.2.1 q.1 with
            | some old =>
              if nd < old then ((nd, q.1) :: acc.1, (q.1, nd) :: acc.2.1, (q.1, n) :: acc.2.2)
              else acc
            | none => ((nd, q.1) :: acc.1, (q.1, nd) :: acc.2.1, (q.1, n) :: acc.2.2))
          (rest, dist, prev)
        dijkstraLoop g goal fuel st.1 st.2.1 st.2.2 (n :: visited) (steps + 1)

/-- Fuel bound under which `dijkstraLoop` always runs to completion (see
the section comment). -/
def dijkstraFuel (g : Graph C W) : ℕ :=
  (g.nodes.length + 1) * (g.totalNeighbors + 1) + 2

/-- Shared body of `dijkstra_path` and `run_dijkstra` up to the final
lookup: run the loop from `queue = [(0.0, start_node)]`,
`dist = \x7bstart: 0.0\x7d`, empty `prev` and `visited`. -/
def dijkstraRun (g : Graph C W) (start goal : String) :
    List (String × W) × List (String × String) × ℕ :=
  dijkstraLoop g goal (dijkstraFuel g) [((0 : W), start)] [(start, 0)] [] [] 0

/-- The reconstruction loop `while cur != start: cur = prev[cur];
path.append(cur)`.  A missing `prev` entry raises `KeyError` in Python;
the model stops there (it cannot be reached from a completed run, where
every non-start `dist` key has a `prev` entry).  The fuel bounds the
walk; `prev` entries chain strictly decreasing tentative distances, so a
completed run needs at most `|prev| + 1` iterations. -/
def rebuildPath (prev : List (String × String)) (start : String) :
    ℕ → String → List String → List String
  | 0, _, acc => acc
  | fuel + 1, cur, acc =>
    if cur = start then acc
    else
      match lookupA prev cur with
      | none => acc
      | some p => rebuildPath prev start fuel p (acc ++ [p])

/-- `dijkstra_path(graph, start, goal)` from `aas_pathfinder.py`
lines 247-280: `([], float("inf"))` when the goal never obtained a
tentative distance, otherwise the reconstructed path and `dist[goal]`.
The infinite cost is modelled by `⊤` in `WithTop W`. -/
def dijkstra_path (g : Graph C W) (start goal : String) :
    List String × WithTop W :=
  let r := dijkstraRun g start goal
  match lookupA r.1 goal with
  | none => ([], ⊤)
  | some dg => ((rebuildPath r.2.1 start (r.2.1.length + 1) goal [goal]).reverse, (dg : WithTop W))

/-- `run_dijkstra(graph, start, goal)` from `aas_comparison.py`
lines 60-97: same search, also reporting the step count and the elapsed
wall-clock time (a float in the source, abstracted here to the constant
`0 : ℕ`; no claim concerns its value). -/
def run_dijkstra (g : Graph C W) (start goal : String) :
    List String × WithTop W × ℕ × ℕ :=
  let r := dijkstraRun g start goal
  match lookupA r.1 goal with
  | none => ([], ⊤, r.2.2, 0)
  | some dg =>
    ((rebuildPath r.2.1 start (r.2.1.length + 1) goal [goal]).reverse,
     (dg : WithTop W), r.2.2, 0)

/-- Reachability along stored neighbor entries, the notion under which a
search failure ("no path") can occur (spec section 4.3 "Failure"). -/
inductive Reach (g : Graph C W) (s : String) : String → Prop
  | refl : Reach g s s
  | step {u v : String} {node : Node C W} {w : W} :
      Reach g s u → g.find_node u = some node → (v, w) ∈ node.neighbors →
      Reach g s v

/-! ### Multi-waypoint chaining (`aas_comparison.sequential_search`,
lines 248-265)

The per-segment algorithm `algo_func` is a parameter in the source
(`run_astar`, `run_dijkstra`); it is a parameter here, returning
`(path, distance, steps, time)` with result types `D` (distance) and `T`
(time) — Python's duck typing lets the distance be an ordinary float or
`inf`; instantiations use `ℚ` or `WithTop ℚ`. -/

/-- `sequential_search(graph, nodes, algo_func)` from `aas_comparison.py`
lines 248-265.  `full_path` starts as `[nodes[0]]` (modelled
`nodes.take 1`; Python raises `IndexError` on an empty list, outside
every claim); each consecutive pair is searched, an empty segment path is
replaced by the direct pair `[a, b]`, the segment path minus its first
node is appended, and distance/steps/time are accumulated — including the
segment distance of a failed segment. -/
def sequential_search {C W D T : Type} [AddCommMonoid D] [AddCommMonoid T]
    (g : Graph C W) (nodes : List String)
    (algo : Graph C W → String → String → List String × D × ℕ × T) :
    List String × D × ℕ × T :=
  (nodes.zip nodes.tail).foldl
    (fun acc p =>
      let seg := algo g p.1 p.2
      let segPath := if seg.1 = [] then [p.1, p.2] else seg.1
      (acc.1 ++ segPath.drop 1, acc.2.1 + seg.2.1, acc.2.2.1 + seg.2.2.1,
       acc.2.2.2 + seg.2.2.2))
    (nodes.take 1, 0, 0, 0)

/-! ### Genetic algorithm
(`aas_comparison.ga_shortest_path_process_based`, lines 99-154)

Randomness model: Python's global `random` generator is a single stream
of draws consumed in program order.  It is modelled by an `Oracle` of two
streams indexed by a counter threaded through the computation in the same
order: `nat i` supplies the raw draw behind the `i`-th
`randint`/`choice`/`sample`-component call, and `unif i` the `i`-th
`random.random()` result.  The claims never concern the distribution of
the draws, only which outcomes are possible, so an arbitrary stream is an
adequate model.  Python exceptions become `Except.error`. -/

/-- Oracle of random draws (see the section comment). -/
structure Oracle where
  nat : ℕ → ℕ
  unif : ℕ → ℚ

/-- `random.randint(lo, hi)`: uniform integer in `[lo, hi]`, raising
`ValueError` when the range is empty (`hi < lo`).  The draw `d` selects
the value. -/
def randint (lo hi : ℤ) (d : ℕ) : Except String ℤ :=
  if hi < lo then .error "ValueError: empty range for randrange"
  else .ok (lo + (d : ℤ) % (hi - lo + 1))

/-- `random.sample(l, 2)`: two entries at distinct uniformly-chosen
positions; `ValueError` when the population has fewer than 2 entries. -/
def sample2 {α : Type} [Inhabited α] (l : List α) (d1 d2 : ℕ) :
    Except String (α × α) :=
  if l.length < 2 then .error "ValueError: sample larger than population"
  else
    let i := d1 % l.length
    let j0 := d2 % (l.length - 1)
    let j := if i ≤ j0 then j0 + 1 else j0
    .ok (l.getD i default, l.getD j default)

/-- The grouping `by_process` built at `aas_comparison.py` lines 108-110:
for each process, the names of the machines of that process in input
order.  The machine dictionary is modelled as the list of its values in
iteration order, each contributing `(name, process)`. -/
def byProcess (ms : List (String × String)) (proc : String) : List String :=
  (ms.filter (fun m => m.2 == proc)).map (·.1)

/-- `random_individual()` (lines 112-113): one candidate index per process
step, each drawn by `randint(0, len(pool) - 1)` — `ValueError` when a
pool is empty.  Consumes one draw per step; returns the individual and
the advanced draw counter. -/
def random_individual (ms : List (String × String)) (o : Oracle) :
    List String → ℕ → Except String (List ℕ × ℕ)
  | [], ctr => .ok ([], ctr)
  | proc :: rest, ctr =>
    match randint 0 (((byProcess ms proc).length : ℤ) - 1) (o.nat ctr) with
    | .error e => .error e
    | .ok idx =>
      match random_individual ms o rest (ctr + 1) with
      | .error e => .error e
      | .ok (ind, ctr') => .ok (idx.toNat :: ind, ctr')

/-- The population initialization
`[random_individual() for _ in range(pop_size)]` (line 137). -/
def randomPopulation (ms : List (String × String)) (flow : List String)
    (o : Oracle) : ℕ → ℕ → Except String (List (List ℕ) × ℕ)
  | 0, ctr => .ok ([], ctr)
  | k + 1, ctr =>
    match random_individual ms o flow ctr with
    | .error e => .error e
    | .ok (ind, ctr') =>
      match randomPopulation ms flow o k ctr' with
      | .error e => .error e
      | .ok (pop, ctr'') => .ok (ind :: pop, ctr'')

/-- `decode_individual(ind)` (lines 115-116): the machine name selected
by each index.  (Python indexing out of range raises; individuals
produced by the algorithm are always in range.) -/
def decode_individual (ms : List (String × String)) (flow : List String)
    (ind : List ℕ) : List String :=
  (flow.zip ind).map (fun p => (byProcess ms p.1).getD p.2 "")

/-- `fitness(ind)` (lines 118-120): the `path_distance` of the decoded
individual. -/
def gaFitness {C W : Type} [AddCommMonoid W] (ms : List (String × String))
    (flow : List String) (g : Graph C W) (ind : List ℕ) : W :=
  path_distance g (decode_individual ms flow ind)

/-- `crossover(p1, p2)` (lines 122-124): single-point crossover with cut
point `randint(1, len(p1) - 1)` — `ValueError` when `len(p1) < 2`. -/
def crossover (p1 p2 : List ℕ) (d : ℕ) : Except String (List ℕ) :=
  match randint 1 ((p1.length : ℤ) - 1) d with
  | .error e => .error e
  | .ok point => .ok (p1.take point.toNat ++ p2.drop point.toNat)

/-- `mutate(ind)` (lines 126-134): choose a gene position by
`randint(0, len(ind) - 1)`; when the step's candidate pool has at most
one entry, return unchanged (`return`); otherwise remove the current
value from the index range (Python `list.remove` raises when it is
absent, i.e. when the gene is out of range for the pool) and set the gene
to a `random.choice` among the rest.  The source mutates `ind` in place;
the model returns the new individual. -/
def mutate (ms : List (String × String)) (flow : List String)
    (ind : List ℕ) (d1 d2 : ℕ) : Except String (List ℕ) :=
  match randint 0 ((ind.length : ℤ) - 1) d1 with
  | .error e => .error e
  | .ok i0 =>
    let i := i0.toNat
    let proc := flow.getD i ""
    let current := ind.getD i 0
    let choices := List.range (byProcess ms proc).length
    if choices.length ≤ 1 then .ok ind
    else if current ∈ choices then
      let choices' := choices.erase current
      .ok (ind.set i (choices'.getD (d2 % choices'.length) 0))
    else .error "ValueError: list.remove(x): x not in list"

/-- Stable ascending insertion of `x` into a list sorted by the key
`fit`. -/
def insertByFit {W : Type} [LinearOrder W] (fit : List ℕ → W)
    (x : List ℕ) : List (List ℕ) → List (List ℕ)
  | [] => [x]
  | y :: ys => if fit x ≤ fit y then x :: y :: ys else y :: insertByFit fit x ys

/-- `population.sort(key=fitness)` (lines 140 and 150), modelled as an
insertion sort by the fitness key.  Only sortedness and the permutation
property matter to the claims; Python's sort is stable, as is this
one. -/
def sortFit {W : Type} [LinearOrder W] (fit : List ℕ → W) :
    List (List ℕ) → List (List ℕ)
  | [] => []
  | x :: xs => insertByFit fit x (sortFit fit xs)

/-- The best (minimum) fitness present in a population; `⊤` for an empty
population. -/
def bestFit {W : Type} [LinearOrder W] (fit : List ℕ → W)
    (pop : List (List ℕ)) : WithTop W :=
  pop.foldr (fun i acc => min (fit i : WithTop W) acc) ⊤

variable {C : Type} {W : Type} [LinearOrderedAddCommMonoid W]

/-- The `while len(next_gen) < pop_size:` loop (lines 142-147): sample two
parents from the best 10 of the sorted population, cross them, mutate the
child when `random.random() < mutation_rate`, and append it.  Each
iteration appends exactly one child, so the loop runs exactly
`pop_size - len(next_gen)` times, used as structural fuel.  Draw counter
discipline: sample = 2 draws, crossover = 1 draw, the mutation coin = 1
`unif` draw sharing the counter, mutation = 2 draws. -/
def buildNextGen (ms : List (String × String)) (flow : List String)
    (rate : ℚ) (o : Oracle) (sorted : List (List ℕ)) :
    ℕ → List (List ℕ) → ℕ → Except String (List (List ℕ) × ℕ)
  | 0, acc, ctr => .ok (acc, ctr)
  | fuel + 1, acc, ctr =>
    match sample2 (sorted.take 10) (o.nat ctr) (o.nat (ctr + 1)) with
    | .error e => .error e
    | .ok (p1, p2) =>
      match crossover p1 p2 (o.nat (ctr + 2)) with
      | .error e => .error e
      | .ok child =>
        if o.unif (ctr + 3) < rate then
          match mutate ms flow child (o.nat (ctr + 4)) (o.nat (ctr + 5)) with
          | .error e => .error e
          | .ok child' => buildNextGen ms flow rate o sorted fuel (acc ++ [child']) (ctr + 6)
        else
          buildNextGen ms flow rate o sorted fuel (acc ++ [child]) (ctr + 4)

/-- One generation (loop body, lines 140-148): sort by fitness, keep the
best 2 (`next_gen = population[:2]`), fill up with children. -/
def nextGeneration (ms : List (String × String)) (flow : List String)
    (g : Graph C W) (pop_size : ℕ) (rate : ℚ) (o : Oracle)
    (pop : List (List ℕ)) (ctr : ℕ) : Except String (List (List ℕ) × ℕ) :=
  let sorted := sortFit (gaFitness ms flow g) pop
  let elite := sorted.take 2
  buildNextGen ms flow rate o sorted (pop_size - elite.length) elite ctr

/-- The `for _ in range(generations):` loop (lines 139-148). -/
def gaGenerations (ms : List (String × String)) (flow : List String)
    (g : Graph C W) (pop_size : ℕ) (rate : ℚ) (o : Oracle) :
    ℕ → List (List ℕ) → ℕ → Except String (List (List ℕ) × ℕ)
  | 0, pop, ctr => .ok (pop, ctr)
  | gens + 1, pop, ctr =>
    match nextGeneration ms flow g pop_size rate o pop ctr with
    | .error e => .error e
    | .ok (pop', ctr') => gaGenerations ms flow g pop_size rate o gens pop' ctr'

/-- `ga_shortest_path_process_based` (lines 99-154): initialize the
population, evolve for `generations` generations, sort, and report the
decoded best individual, its fitness, the generation count, and the
elapsed time (abstracted to `0`).  (`population[0]` of an empty
population raises in Python; modelled with `headD`, outside every
claim.) -/
def ga_shortest_path_process_based (ms : List (String × String))
    (flow : List String) (g : Graph C W) (generations pop_size : ℕ)
    (rate : ℚ) (o : Oracle) : Except String (List String × W × ℕ × ℚ) :=
  match randomPopulation ms flow o pop_size 0 with
  | .error e => .error e
  | .ok (pop, ctr) =>
    match gaGenerations ms flow g pop_size rate o generations pop ctr with
    | .error e => .error e
    | .ok (popF, _) =>
      let best := (sortFit (gaFitness ms flow g) popF).headD []
      .ok (decode_individual ms flow best, gaFitness ms flow g best, generations, 0)

/-! ### Comparison harness (`aas_comparison.main`, lines 156-246)

The harness loads machines, builds the graph and runs the strategies;
the loading, timing and search outcomes are inputs here, and the embedded
part is the assembly of the per-algorithm result records (lines 186-222):
A* always runs and its record carries `optimal=True` unconditionally;
Dijkstra and the GA run when selected by `--algorithm` (the two `Bool`
flags) and carry `optimal = abs(cost - a_cost) < 1e-6`.  Costs of the
chained searches may be `inf` (modelled `WithTop ℚ`); the GA fitness is
always finite. -/

/-- One row of `results` (also the `results.csv` row shape):
`[algorithm, path, distance_km, time_s, optimal, iterations]`. -/
structure ResultRow where
  alg : String
  path : List String
  dist : WithTop ℚ
  time : ℚ
  optimal : Bool
  iters : ℕ
deriving DecidableEq

/-- `abs(cost - a_cost) < 1e-6` under IEEE float semantics: when either
operand is `inf` the difference is `inf` or `nan`, and the comparison is
`False`; for finite operands it is the exact rational comparison (the
float literal `1e-6` is modelled as `10⁻⁶`). -/
def pyAbsLtTol (cost aCost : WithTop ℚ) : Bool :=
  match cost, aCost with
  | (c : ℚ), (a : ℚ) => decide (|c - a| < 1 / 1000000)
  | _, _ => false

/-- The `results` list assembled by `main` (lines 186-222) from the three
strategies' outcomes: the A* record (always, `optimal=True`), then the
Dijkstra record when selected, then the GA record when selected. -/
def mainResults (aP : List String) (aC : WithTop ℚ) (aS : ℕ) (aT : ℚ)
    (dP : List String) (dC : WithTop ℚ) (dS : ℕ) (dT : ℚ)
    (gP : List String) (gC : ℚ) (gI : ℕ) (gT : ℚ)
    (runD runGA : Bool) : List ResultRow :=
  [⟨"astar", aP, aC, aT, true, aS⟩]
    ++ (if runD then [⟨"dijkstra", dP, dC, dT, pyAbsLtTol dC aC, dS⟩] else [])
    ++ (if runGA then [⟨"ga", gP, (gC : WithTop ℚ), gT, pyAbsLtTol (gC : WithTop ℚ) aC, gI⟩] else [])

/-! ## Theorems -/

/-! ### C7 — properties of `haversine` -/

lemma atan2_zero_one : atan2 0 1 = 0 := by
  unfold atan2
  rw [show (⟨1, 0⟩ : ℂ) = ((1 : ℝ) : ℂ) from rfl]
  exact Complex.arg_ofReal_of_nonneg zero_le_one

lemma atan2_nonneg {y x : ℝ} (hy : 0 ≤ y) : 0 ≤ atan2 y x := by
  unfold atan2
  exact Complex.arg_nonneg_iff.mpr hy

lemma sin_neg_mul_sq (x : ℝ) :
    Real.sin (-x * (Real.pi / 180) / 2) ^ 2 = Real.sin (x * (Real.pi / 180) / 2) ^ 2 := by
  rw [show -x * (Real.pi / 180) / 2 = -(x * (Real.pi / 180) / 2) by ring, Real.sin_neg]
  ring

/-- The measure-zero argument of `haversine` at two coordinates with equal
latitude differences and longitude differences vanishing: the haversine
kernel `a` evaluates to `0` when both half-angle sines vanish or the
cosine factors vanish; packaged for reuse. -/
lemma haversine_of_kernel_zero (lat1 lon1 lat2 lon2 : ℝ)
    (h : Real.sin (radians (lat2 - lat1) / 2) ^ 2 +
      Real.cos (radians lat1) * Real.cos (radians lat2) *
        Real.sin (radians (lon2 - lon1) / 2) ^ 2 = 0) :
    haversine lat1 lon1 lat2 lon2 = 0 := by
  simp only [haversine, h]
  rw [Real.sqrt_zero, sub_zero, Real.sqrt_one, atan2_zero_one, mul_zero]

lemma haversine_comm (lat1 lon1 lat2 lon2 : ℝ) :
    haversine lat1 lon1 lat2 lon2 = haversine lat2 lon2 lat1 lon1 := by
  simp only [haversine, radians]
  rw [show lat1 - lat2 = -(lat2 - lat1) by ring,
      show lon1 - lon2 = -(lon2 - lon1) by ring,
      sin_neg_mul_sq, sin_neg_mul_sq,
      show Real.cos (lat2 * (Real.pi / 180)) * Real.cos (lat1 * (Real.pi / 180)) =
        Real.cos (lat1 * (Real.pi / 180)) * Real.cos (lat2 * (Real.pi / 180)) by ring]

lemma haversine_nonneg (lat1 lon1 lat2 lon2 : ℝ) :
    0 ≤ haversine lat1 lon1 lat2 lon2 := by
  simp only [haversine]
  have h1 : (0 : ℝ) ≤ 2 * 6371 := by norm_num
  exact mul_nonneg h1 (atan2_nonneg (Real.sqrt_nonneg _))

lemma haversine_self (lat1 lon1 : ℝ) : haversine lat1 lon1 lat1 lon1 = 0 := by
  apply haversine_of_kernel_zero
  simp [radians]

/-- C7 (amended) — the geospatial distance function `haversine` is
symmetric and non-negative, and `haversine` of a coordinate with itself
is `0`.  (The converse — zero only at identical coordinates — is false;
see the counterexample.) -/
theorem C7_haversine_symm_nonneg_self (lat1 lon1 lat2 lon2 : ℝ) :
    haversine lat1 lon1 lat2 lon2 = haversine lat2 lon2 lat1 lon1 ∧
    0 ≤ haversine lat1 lon1 lat2 lon2 ∧
    haversine lat1 lon1 lat1 lon1 = 0 :=
  ⟨haversine_comm lat1 lon1 lat2 lon2, haversine_nonneg lat1 lon1 lat2 lon2,
   haversine_self lat1 lon1⟩

/-- C7 (counterexample) — `haversine` vanishes at the two distinct
coordinates `(90, 0)` and `(90, 10)` (both at the pole, differing in
longitude), so "zero iff the two coordinates are identical" fails: zero
does not imply identical. -/
theorem C7_haversine_zero_at_distinct_points :
    haversine 90 0 90 10 = 0 ∧ ((90 : ℝ), (0 : ℝ)) ≠ ((90 : ℝ), (10 : ℝ)) := by
  constructor
  · apply haversine_of_kernel_zero
    have h90 : radians 90 = Real.pi / 2 := by
      simp only [radians]; ring
    rw [show (90 : ℝ) - 90 = 0 by ring, h90, Real.cos_pi_div_two]
    simp [radians]
  · intro h
    have := congrArg Prod.snd h
    norm_num at this

/-! ### C2 — the "optimal" booleans of the comparison harness -/

/-- C2 — in every assembled result list the A* record carries
`optimal = True` unconditionally, every other record carries
`optimal = abs(cost - a_cost) < 1e-6` (float semantics), and on finite
reported costs that comparison is exactly the strict rational comparison
against `10⁻⁶`. -/
theorem C2_optimal_flags (aP : List String) (aC : WithTop ℚ) (aS : ℕ) (aT : ℚ)
    (dP : List String) (dC : WithTop ℚ) (dS : ℕ) (dT : ℚ)
    (gP : List String) (gC : ℚ) (gI : ℕ) (gT : ℚ) (runD runGA : Bool) :
    (mainResults aP aC aS aT dP dC dS dT gP gC gI gT runD runGA).head? =
      some ⟨"astar", aP, aC, aT, true, aS⟩ ∧
    (∀ r ∈ mainResults aP aC aS aT dP dC dS dT gP gC gI gT runD runGA,
      r.alg ≠ "astar" → r.optimal = pyAbsLtTol r.dist aC) ∧
    (∀ x y : ℚ, pyAbsLtTol (x : WithTop ℚ) (y : WithTop ℚ) =
      decide (|x - y| < 1 / 1000000)) := by
  refine ⟨by simp [mainResults], ?_, fun x y => rfl⟩
  intro r hr hneq
  cases runD <;> cases runGA <;> simp [mainResults] at hr
  · rcases hr with rfl
    exact absurd rfl hneq
  · rcases hr with rfl | rfl
    · exact absurd rfl hneq
    · rfl
  · rcases hr with rfl | rfl
    · exact absurd rfl hneq
    · rfl
  · rcases hr with rfl | rfl | rfl
    · exact absurd rfl hneq
    · rfl
    · rfl

/-- Witness for C2 at concrete inputs: the flags of a three-row run with
equal A*/Dijkstra costs. -/
theorem C2_optimal_flags_witness :
    (mainResults ["A"] 3 1 0 ["B"] 3 1 0 ["C"] 4 2 0 true true).head? =
      some ⟨"astar", ["A"], 3, 0, true, 1⟩ ∧
    ((⟨"dijkstra", ["B"], 3, 0, pyAbsLtTol 3 3, 1⟩ : ResultRow).optimal =
      pyAbsLtTol 3 3) ∧
    pyAbsLtTol ((3 : ℚ) : WithTop ℚ) ((3 : ℚ) : WithTop ℚ) =
      decide (|(3 : ℚ) - 3| < 1 / 1000000) := by
  have h := C2_optimal_flags ["A"] 3 1 0 ["B"] 3 1 0 ["C"] 4 2 0 true true
  exact ⟨h.1, h.2.1 ⟨"dijkstra", ["B"], 3, 0, pyAbsLtTol 3 3, 1⟩ (by simp [mainResults])
    (by decide), h.2.2 3 3⟩

/-! ### C6 — chaining when every segment succeeds -/

lemma sequential_fold {C W D T : Type} [AddCommMonoid D] [AddCommMonoid T]
    (g : Graph C W)
    (algo : Graph C W → String → String → List String × D × ℕ × T)
    (l : List (String × String)) (acc : List String × D × ℕ × T)
    (h : ∀ p ∈ l, (algo g p.1 p.2).1 ≠ []) :
    l.foldl
      (fun acc p =>
        let seg := algo g p.1 p.2
        let segPath := if seg.1 = [] then [p.1, p.2] else seg.1
        (acc.1 ++ segPath.drop 1, acc.2.1 + seg.2.1, acc.2.2.1 + seg.2.2.1,
         acc.2.2.2 + seg.2.2.2)) acc =
      (acc.1 ++ (l.map (fun p => (algo g p.1 p.2).1.drop 1)).flatten,
       acc.2.1 + (l.map (fun p => (algo g p.1 p.2).2.1)).sum,
       acc.2.2.1 + (l.map (fun p => (algo g p.1 p.2).2.2.1)).sum,
       acc.2.2.2 + (l.map (fun p => (algo g p.1 p.2).2.2.2)).sum) := by
  induction l generalizing acc with
  | nil => simp
  | cons p l ih =>
    have hp : (algo g p.1 p.2).1 ≠ [] := h p (List.mem_cons_self p l)
    simp only [List.foldl_cons, if_neg hp]
    rw [ih _ (fun q hq => h q (List.mem_cons_of_mem p hq))]
    simp [List.append_assoc, add_assoc]

/-- C6 — on a waypoint list `n0 :: rest` (`k = rest.length ≥ 1` segments)
where every per-segment search returns a nonempty path, the composite
path is `n0` followed by the concatenation of the segment paths each
deprived of its first (duplicated boundary) node, and the total distance,
step count and elapsed time are the sums of the per-segment values. -/
theorem C6_sequential_search_success {C W D T : Type} [AddCommMonoid D]
    [AddCommMonoid T] (g : Graph C W) (n0 : String) (rest : List String)
    (algo : Graph C W → String → String → List String × D × ℕ × T)
    (hk : rest ≠ [])
    (hseg : ∀ p ∈ (n0 :: rest).zip rest, (algo g p.1 p.2).1 ≠ []) :
    sequential_search g (n0 :: rest) algo =
      (n0 :: (((n0 :: rest).zip rest).map (fun p => (algo g p.1 p.2).1.drop 1)).flatten,
       (((n0 :: rest).zip rest).map (fun p => (algo g p.1 p.2).2.1)).sum,
       (((n0 :: rest).zip rest).map (fun p => (algo g p.1 p.2).2.2.1)).sum,
       (((n0 :: rest).zip rest).map (fun p => (algo g p.1 p.2).2.2.2)).sum) := by
  unfold sequential_search
  rw [show (n0 :: rest).tail = rest from rfl,
    sequential_fold g algo ((n0 :: rest).zip rest) _ hseg]
  simp

/-- Witness for C6: a three-waypoint chain with a two-node path per
segment. -/
theorem C6_sequential_search_success_witness :
    (["B", "C"] ≠ ([] : List String)) ∧
    sequential_search (⟨[]⟩ : Graph Unit ℚ) ["A", "B", "C"]
        (fun _ a b => ([a, b], (1 : ℚ), 1, (1 : ℚ))) =
      ("A" :: ((List.zip ["A", "B", "C"] ["B", "C"]).map
          (fun p => ([p.1, p.2].drop 1))).flatten,
       ((List.zip ["A", "B", "C"] ["B", "C"]).map (fun _ => (1 : ℚ))).sum,
       ((List.zip ["A", "B", "C"] ["B", "C"]).map (fun _ => 1)).sum,
       ((List.zip ["A", "B", "C"] ["B", "C"]).map (fun _ => (1 : ℚ))).sum) :=
  ⟨by decide,
   C6_sequential_search_success (⟨[]⟩ : Graph Unit ℚ) "A" ["B", "C"]
     (fun _ a b => ([a, b], (1 : ℚ), 1, (1 : ℚ))) (by decide) (by decide)⟩

/-! ### C8 — mutation on singleton candidate pools -/

lemma getD_mem {α : Type} {l : List α} {n : ℕ} (h : n < l.length) (d : α) :
    l.getD n d ∈ l := by
  rw [List.getD_eq_getElem l d h]
  exact List.getElem_mem h

/-- C8 — the index-vector mutation: when the chosen gene's pool has
exactly one candidate it returns the individual unchanged with no error;
when the pool has at least two candidates and the current gene is a valid
index, it succeeds and replaces exactly the chosen gene with a valid
index different from the current value.  The chosen position is
`d1 % ind.length` (the `randint(0, len(ind)-1)` draw); the replacement is
selected by the `random.choice` draw `d2` from the valid indices minus
the current one. -/
theorem C8_mutate_singleton_noop_else_valid (ms : List (String × String))
    (flow : List String) (ind : List ℕ) (d1 d2 : ℕ) (hne : ind ≠ []) :
    ((byProcess ms (flow.getD (d1 % ind.length) "")).length = 1 →
      mutate ms flow ind d1 d2 = .ok ind) ∧
    (2 ≤ (byProcess ms (flow.getD (d1 % ind.length) "")).length →
      ind.getD (d1 % ind.length) 0 < (byProcess ms (flow.getD (d1 % ind.length) "")).length →
      ∃ v, mutate ms flow ind d1 d2 = .ok (ind.set (d1 % ind.length) v) ∧
        v < (byProcess ms (flow.getD (d1 % ind.length) "")).length ∧
        v ≠ ind.getD (d1 % ind.length) 0) := by
  have hlen : 0 < ind.length := List.length_pos.mpr hne
  have hri : randint 0 ((ind.length : ℤ) - 1) d1 = .ok ((d1 % ind.length : ℕ) : ℤ) := by
    unfold randint
    rw [if_neg (by omega)]
    congr 1
    rw [show ((ind.length : ℤ) - 1 - 0 + 1) = (ind.length : ℤ) by ring]
    omega
  constructor
  · intro h1
    simp only [mutate, hri, Int.toNat_natCast, List.length_range]
    rw [if_pos (by omega)]
  · intro h2 hcur
    simp only [mutate, hri, Int.toNat_natCast, List.length_range]
    rw [if_neg (by omega), if_pos (List.mem_range.mpr hcur)]
    set n := (byProcess ms (flow.getD (d1 % ind.length) "")).length with hn
    set cur := ind.getD (d1 % ind.length) 0 with hc
    have hmem : cur ∈ List.range n := List.mem_range.mpr hcur
    have hlen' : ((List.range n).erase cur).length + 1 = n := by
      rw [List.length_erase_add_one hmem, List.length_range]
    have hpos : 0 < ((List.range n).erase cur).length := by omega
    refine ⟨((List.range n).erase cur).getD (d2 % ((List.range n).erase cur).length) 0,
      rfl, ?_, ?_⟩
    · have hv := getD_mem (Nat.mod_lt _ hpos) 0
        (l := (List.range n).erase cur) (n := d2 % ((List.range n).erase cur).length)
      have := ((List.nodup_range n).mem_erase_iff.mp hv).2
      exact List.mem_range.mp this
    · have hv := getD_mem (Nat.mod_lt _ hpos) 0
        (l := (List.range n).erase cur) (n := d2 % ((List.range n).erase cur).length)
      exact ((List.nodup_range n).mem_erase_iff.mp hv).1

/-- Witness for C8: a two-candidate pool with current gene `0`, mutated
to the remaining valid index `1`; the singleton case evaluates to the
check `1 = 2 → ...`, vacuous here. -/
theorem C8_mutate_witness :
    (([0] : List ℕ) ≠ []) ∧
    mutate [("m1", "P"), ("m2", "P")] ["P"] [0] 0 0 = .ok [1] ∧
    (2 ≤ (byProcess [("m1", "P"), ("m2", "P")] ((["P"] : List String).getD (0 % ([0] : List ℕ).length) "")).length →
      ([0] : List ℕ).getD (0 % ([0] : List ℕ).length) 0 <
        (byProcess [("m1", "P"), ("m2", "P")] ((["P"] : List String).getD (0 % ([0] : List ℕ).length) "")).length →
      ∃ v, mutate [("m1", "P"), ("m2", "P")] ["P"] [0] 0 0 =
          .ok (([0] : List ℕ).set (0 % ([0] : List ℕ).length) v) ∧
        v < (byProcess [("m1", "P"), ("m2", "P")] ((["P"] : List String).getD (0 % ([0] : List ℕ).length) "")).length ∧
        v ≠ ([0] : List ℕ).getD (0 % ([0] : List ℕ).length) 0) :=
  ⟨by decide, by rfl,
   (C8_mutate_singleton_noop_else_valid [("m1", "P"), ("m2", "P")] ["P"] [0] 0 0
     (by decide)).2⟩

/-! ### C1 — failed segments are not flagged by `sequential_search`
(code bug)

The claim (and the spec's stated intent) requires the degraded outcome of
a failed segment search to be flagged and the undefined segment cost not
to be silently summed into the aggregate distance.  The code has no flag:
on the two-node edgeless graph below, the Dijkstra segment search for
`("A", "B")` fails with `([], inf)`, and `sequential_search` returns the
ordinary success shape `(full_path, total_dist, steps, time)` with the
direct pair spliced in and `total_dist = 0.0 + inf = inf` — indistinguishable
in shape from a genuine success and with the undefined cost summed in. -/

/-- The failing input for C1: two nodes, no edges (the weight type is
irrelevant — no edge exists; `ℕ` keeps the evaluation kernel-checkable). -/
def gAB : Graph Unit ℕ := ⟨[⟨"A", (), []⟩, ⟨"B", (), []⟩]⟩

/-- C1 (code evaluation at the failing input) — the segment search fails
(`([], ⊤)`), yet the chained result is the plain 4-tuple
`(["A", "B"], ⊤, 1, 0)`: the direct pair is inserted, no failure flag of
any kind is present in the result type, and the infinite segment cost is
summed into the aggregate distance. -/
theorem C1_failed_segment_not_flagged :
    run_dijkstra gAB "A" "B" = ([], (⊤ : WithTop ℕ), 1, 0) ∧
    sequential_search gAB ["A", "B"] run_dijkstra =
      (["A", "B"], (⊤ : WithTop ℕ), 1, 0) := by
  exact ⟨rfl, by decide⟩

/-! ### C5 — elitism and monotone best fitness in the GA -/

section GAElitism

variable {W : Type} [LinearOrder W]

lemma insertByFit_perm (fit : List ℕ → W) (x : List ℕ) :
    ∀ l : List (List ℕ), List.Perm (insertByFit fit x l) (x :: l) := by
  intro l
  induction l with
  | nil => exact List.Perm.refl _
  | cons y ys ih =>
    unfold insertByFit
    split
    · exact List.Perm.refl _
    · exact (ih.cons y).trans (List.Perm.swap x y ys)

lemma sortFit_perm (fit : List ℕ → W) :
    ∀ l : List (List ℕ), List.Perm (sortFit fit l) l := by
  intro l
  induction l with
  | nil => exact List.Perm.refl _
  | cons x xs ih =>
    exact (insertByFit_perm fit x (sortFit fit xs)).trans (ih.cons x)

lemma sortFit_head_min (fit : List ℕ → W) :
    ∀ (l : List (List ℕ)) (h : List ℕ) (t : List (List ℕ)),
      sortFit fit l = h :: t → ∀ y ∈ l, fit h ≤ fit y := by
  intro l
  induction l with
  | nil => intro h t hht; simp [sortFit] at hht
  | cons x xs ih =>
    intro h t hht y hy
    rw [show sortFit fit (x :: xs) = insertByFit fit x (sortFit fit xs) from rfl] at hht
    cases hs : sortFit fit xs with
    | nil =>
      have hp := sortFit_perm fit xs
      rw [hs] at hp
      have hxs : xs = [] := hp.symm.eq_nil
      rw [hs] at hht
      unfold insertByFit at hht
      obtain ⟨rfl, -⟩ := List.cons.inj hht
      rcases List.mem_cons.mp hy with rfl | hmem
      · exact le_refl _
      · simp [hxs] at hmem
    | cons h' t' =>
      rw [hs] at hht
      unfold insertByFit at hht
      by_cases hle : fit x ≤ fit h'
      · rw [if_pos hle] at hht
        obtain ⟨rfl, -⟩ := List.cons.inj hht
        rcases List.mem_cons.mp hy with rfl | hmem
        · exact le_refl _
        · exact hle.trans (ih h' t' hs y hmem)
      · rw [if_neg hle] at hht
        obtain ⟨rfl, -⟩ := List.cons.inj hht
        rcases List.mem_cons.mp hy with rfl | hmem
        · exact (not_le.mp hle).le
        · exact ih h' t' hs y hmem

lemma bestFit_le_of_mem (fit : List ℕ → W) {pop : List (List ℕ)}
    {y : List ℕ} (hy : y ∈ pop) : bestFit fit pop ≤ (fit y : WithTop W) := by
  induction pop with
  | nil => cases hy
  | cons x xs ih =>
    rcases List.mem_cons.mp hy with rfl | hmem
    · exact min_le_left _ _
    · exact (min_le_right _ _).trans (ih hmem)

lemma le_bestFit (fit : List ℕ → W) {pop : List (List ℕ)} {c : WithTop W}
    (h : ∀ y ∈ pop, c ≤ (fit y : WithTop W)) : c ≤ bestFit fit pop := by
  induction pop with
  | nil => exact le_top
  | cons x xs ih =>
    exact le_min (h x (List.mem_cons_self x xs))
      (ih (fun y hy => h y (List.mem_cons_of_mem x hy)))

lemma bestFit_append (fit : List ℕ → W) (l1 l2 : List (List ℕ)) :
    bestFit fit (l1 ++ l2) = min (bestFit fit l1) (bestFit fit l2) := by
  induction l1 with
  | nil => simp [bestFit]
  | cons x xs ih =>
    show min _ (bestFit fit (xs ++ l2)) = min (min _ (bestFit fit xs)) (bestFit fit l2)
    rw [ih, min_assoc]

end GAElitism

section GAElitism2

variable {C : Type} {W : Type} [LinearOrderedAddCommMonoid W]

lemma buildNextGen_sub (ms : List (String × String)) (flow : List String)
    (rate : ℚ) (o : Oracle) (sorted : List (List ℕ)) :
    ∀ (fuel : ℕ) (acc : List (List ℕ)) (ctr : ℕ) (res : List (List ℕ)) (ctr' : ℕ),
      buildNextGen ms flow rate o sorted fuel acc ctr = .ok (res, ctr') →
      acc <+: res := by
  intro fuel
  induction fuel with
  | zero =>
    intro acc ctr res ctr' h
    unfold buildNextGen at h
    obtain ⟨rfl, rfl⟩ := Prod.mk.inj (Except.ok.inj h)
    exact List.prefix_rfl
  | succ fuel ih =>
    intro acc ctr res ctr' h
    unfold buildNextGen at h
    split at h
    · cases h
    · split at h
      · cases h
      · split at h
        · split at h
          · cases h
          · exact (List.prefix_append _ _).trans (ih _ _ _ _ h)
        · exact (List.prefix_append _ _).trans (ih _ _ _ _ h)

lemma nextGeneration_ok (ms : List (String × String)) (flow : List String)
    (g : Graph C W) (pop_size : ℕ) (rate : ℚ) (o : Oracle)
    (pop : List (List ℕ)) (ctr : ℕ) (pop' : List (List ℕ)) (ctr' : ℕ)
    (h : nextGeneration ms flow g pop_size rate o pop ctr = .ok (pop', ctr')) :
    (sortFit (gaFitness ms flow g) pop).take 2 <+: pop' ∧
    bestFit (gaFitness ms flow g) pop' ≤ bestFit (gaFitness ms flow g) pop := by
  set fit := gaFitness ms flow g with hfit
  unfold nextGeneration at h
  have hsub : (sortFit fit pop).take 2 <+: pop' :=
    buildNextGen_sub ms flow rate o (sortFit fit pop) _ _ _ _ _ h
  refine ⟨hsub, ?_⟩
  obtain ⟨rest, hrest⟩ := hsub
  cases hs : sortFit fit pop with
  | nil =>
    have hp := sortFit_perm fit pop
    rw [hs] at hp
    rw [hp.symm.eq_nil]
    exact le_top
  | cons hd tl =>
    have hhd : ∀ y ∈ pop, fit hd ≤ fit y := sortFit_head_min fit pop hd tl hs
    have h1 : bestFit fit pop' ≤ (fit hd : WithTop W) := by
      rw [← hrest, hs]
      calc bestFit fit ((hd :: tl).take 2 ++ rest)
          ≤ bestFit fit ((hd :: tl).take 2) :=
            (bestFit_append fit _ rest) ▸ min_le_left _ _
        _ ≤ (fit hd : WithTop W) :=
            bestFit_le_of_mem fit (by simp [List.take])
    exact h1.trans (le_bestFit fit (fun y hy => WithTop.coe_le_coe.mpr (hhd y hy)))

lemma gaGenerations_best (ms : List (String × String)) (flow : List String)
    (g : Graph C W) (pop_size : ℕ) (rate : ℚ) (o : Oracle) :
    ∀ (G : ℕ) (pop : List (List ℕ)) (ctr : ℕ) (pop' : List (List ℕ)) (ctr' : ℕ),
      gaGenerations ms flow g pop_size rate o G pop ctr = .ok (pop', ctr') →
      bestFit (gaFitness ms flow g) pop' ≤ bestFit (gaFitness ms flow g) pop := by
  intro G
  induction G with
  | zero =>
    intro pop ctr pop' ctr' h
    unfold gaGenerations at h
    obtain ⟨rfl, rfl⟩ := Prod.mk.inj (Except.ok.inj h)
    exact le_refl _
  | succ G ih =>
    intro pop ctr pop' ctr' h
    unfold gaGenerations at h
    split at h
    · cases h
    · rename_i p1 c1 heq
      exact (ih _ _ _ _ h).trans
        (nextGeneration_ok ms flow g pop_size rate o pop ctr p1 c1 heq).2

lemma gaGenerations_mono (ms : List (String × String)) (flow : List String)
    (g : Graph C W) (pop_size : ℕ) (rate : ℚ) (o : Oracle) :
    ∀ (G : ℕ) (pop : List (List ℕ)) (ctr : ℕ) (pG : List (List ℕ)) (cG : ℕ)
      (pG1 : List (List ℕ)) (cG1 : ℕ),
      gaGenerations ms flow g pop_size rate o G pop ctr = .ok (pG, cG) →
      gaGenerations ms flow g pop_size rate o (G + 1) pop ctr = .ok (pG1, cG1) →
      bestFit (gaFitness ms flow g) pG1 ≤ bestFit (gaFitness ms flow g) pG := by
  intro G
  induction G with
  | zero =>
    intro pop ctr pG cG pG1 cG1 h0 h1
    unfold gaGenerations at h0
    obtain ⟨rfl, rfl⟩ := Prod.mk.inj (Except.ok.inj h0)
    unfold gaGenerations at h1
    split at h1
    · cases h1
    · rename_i p1 c1 heq
      unfold gaGenerations at h1
      obtain ⟨rfl, rfl⟩ := Prod.mk.inj (Except.ok.inj h1)
      exact (nextGeneration_ok ms flow g pop_size rate o pop ctr p1 c1 heq).2
  | succ G ih =>
    intro pop ctr pG cG pG1 cG1 h0 h1
    unfold gaGenerations at h0 h1
    split at h0
    · rename_i heq
      rw [heq] at h1
      cases h0
    · rename_i p1 c1 heq
      rw [heq] at h1
      exact ih _ _ _ _ _ _ h0 h1

/-- C5 — elitism in `ga_shortest_path_process_based`: every successful
generation transition starts the next population with the first two
individuals of the fitness-sorted current population (the 2 best,
carried over unchanged — children are fresh lists produced by
`crossover`, so elites are never mutated), hence the best fitness present
in the population never increases across one generation, and across `G`
versus `G + 1` generations from the same initial population and random
stream the final best fitness is non-increasing in `G`. -/
theorem C5_ga_elitism_monotone (ms : List (String × String))
    (flow : List String) (g : Graph C W) (pop_size : ℕ) (rate : ℚ)
    (o : Oracle) (pop : List (List ℕ)) (ctr : ℕ) (pop' : List (List ℕ))
    (ctr' : ℕ) (G : ℕ) (pop2 : List (List ℕ)) (ctr2 : ℕ)
    (pG : List (List ℕ)) (cG : ℕ) (pG1 : List (List ℕ)) (cG1 : ℕ)
    (h1 : nextGeneration ms flow g pop_size rate o pop ctr = .ok (pop', ctr'))
    (h2 : gaGenerations ms flow g pop_size rate o G pop2 ctr2 = .ok (pG, cG))
    (h3 : gaGenerations ms flow g pop_size rate o (G + 1) pop2 ctr2 = .ok (pG1, cG1)) :
    (sortFit (gaFitness ms flow g) pop).take 2 <+: pop' ∧
    bestFit (gaFitness ms flow g) pop' ≤ bestFit (gaFitness ms flow g) pop ∧
    bestFit (gaFitness ms flow g) pG1 ≤ bestFit (gaFitness ms flow g) pG := by
  obtain ⟨ha, hb⟩ := nextGeneration_ok ms flow g pop_size rate o pop ctr pop' ctr' h1
  exact ⟨ha, hb, gaGenerations_mono ms flow g pop_size rate o G pop2 ctr2
    pG cG pG1 cG1 h2 h3⟩

/-- Witness for C5: a two-individual population with `pop_size = 2` (the
elite slice already fills the next generation), run for 0 and 1
generations. -/
theorem C5_ga_elitism_monotone_witness :
    (nextGeneration [] ["P"] (⟨[]⟩ : Graph Unit ℕ) 2 0 ⟨fun _ => 0, fun _ => 0⟩
        [[0], [1]] 0 = .ok ([[0], [1]], 0)) ∧
    (gaGenerations [] ["P"] (⟨[]⟩ : Graph Unit ℕ) 2 0 ⟨fun _ => 0, fun _ => 0⟩
        0 [[0], [1]] 0 = .ok ([[0], [1]], 0)) ∧
    (gaGenerations [] ["P"] (⟨[]⟩ : Graph Unit ℕ) 2 0 ⟨fun _ => 0, fun _ => 0⟩
        1 [[0], [1]] 0 = .ok ([[0], [1]], 0)) ∧
    ((sortFit (gaFitness [] ["P"] (⟨[]⟩ : Graph Unit ℕ)) [[0], [1]]).take 2 <+:
        [[0], [1]] ∧
      bestFit (gaFitness [] ["P"] (⟨[]⟩ : Graph Unit ℕ)) [[0], [1]] ≤
        bestFit (gaFitness [] ["P"] (⟨[]⟩ : Graph Unit ℕ)) [[0], [1]] ∧
      bestFit (gaFitness [] ["P"] (⟨[]⟩ : Graph Unit ℕ)) [[0], [1]] ≤
        bestFit (gaFitness [] ["P"] (⟨[]⟩ : Graph Unit ℕ)) [[0], [1]]) := by
  refine ⟨rfl, rfl, rfl, ?_⟩
  exact C5_ga_elitism_monotone [] ["P"] (⟨[]⟩ : Graph Unit ℕ) 2 0
    ⟨fun _ => 0, fun _ => 0⟩ [[0], [1]] 0 [[0], [1]] 0 0 [[0], [1]] 0
    [[0], [1]] 0 [[0], [1]] 0 rfl rfl rfl

end GAElitism2

/-! ### C10 — a single-step process flow makes `crossover` raise -/

section C10Section

variable {C : Type} {W : Type} [LinearOrderedAddCommMonoid W]

lemma crossover_err {p1 p2 : List ℕ} (h : p1.length ≤ 1) (d : ℕ) :
    crossover p1 p2 d = .error "ValueError: empty range for randrange" := by
  unfold crossover
  rw [show randint 1 ((p1.length : ℤ) - 1) d =
      .error "ValueError: empty range for randrange" from by
    unfold randint; rw [if_pos (by omega)]]

lemma sample2_ok {α : Type} [Inhabited α] (l : List α) (h2 : 2 ≤ l.length)
    (d1 d2 : ℕ) : ∃ a b, sample2 l d1 d2 = .ok (a, b) ∧ a ∈ l := by
  unfold sample2
  rw [if_neg (by omega)]
  exact ⟨_, _, rfl, getD_mem (Nat.mod_lt _ (by omega)) _⟩

lemma buildNextGen_err (ms : List (String × String)) (flow : List String)
    (rate : ℚ) (o : Oracle) (sorted : List (List ℕ)) (f : ℕ)
    (acc : List (List ℕ)) (ctr : ℕ)
    (hlen : 2 ≤ (sorted.take 10).length)
    (hones : ∀ a ∈ sorted, a.length ≤ 1) :
    buildNextGen ms flow rate o sorted (f + 1) acc ctr =
      .error "ValueError: empty range for randrange" := by
  unfold buildNextGen
  obtain ⟨a, b, hs, ha⟩ := sample2_ok (sorted.take 10) hlen (o.nat ctr) (o.nat (ctr + 1))
  simp only [hs]
  rw [crossover_err (hones a (List.take_subset 10 sorted ha)) (o.nat (ctr + 2))]

lemma nextGeneration_err (ms : List (String × String)) (flow : List String)
    (g : Graph C W) (pop_size : ℕ) (rate : ℚ) (o : Oracle)
    (pop : List (List ℕ)) (ctr : ℕ) (h3 : 3 ≤ pop_size)
    (hplen : pop.length = pop_size) (hones : ∀ a ∈ pop, a.length ≤ 1) :
    nextGeneration ms flow g pop_size rate o pop ctr =
      .error "ValueError: empty range for randrange" := by
  unfold nextGeneration
  dsimp only
  have hperm := sortFit_perm (gaFitness ms flow g) pop
  have hslen : (sortFit (gaFitness ms flow g) pop).length = pop_size := by
    rw [hperm.length_eq, hplen]
  obtain ⟨f, hf⟩ : ∃ f,
      pop_size - ((sortFit (gaFitness ms flow g) pop).take 2).length = f + 1 := by
    refine ⟨pop_size - 3, ?_⟩
    rw [List.length_take, hslen]
    omega
  rw [hf]
  exact buildNextGen_err ms flow rate o _ f _ ctr
    (by rw [List.length_take, hslen]; omega)
    (fun a ha => hones a (hperm.mem_iff.mp ha))

lemma random_individual_single (ms : List (String × String)) (o : Oracle)
    (p : String) (hp : byProcess ms p ≠ []) (ctr : ℕ) :
    ∃ v : ℕ, random_individual ms o [p] ctr = .ok ([v], ctr + 1) := by
  have hpos : 0 < (byProcess ms p).length := List.length_pos.mpr hp
  unfold random_individual
  simp only [show randint 0 (((byProcess ms p).length : ℤ) - 1) (o.nat ctr) =
      .ok ((0 : ℤ) + (o.nat ctr : ℤ) % (((byProcess ms p).length : ℤ) - 1 - 0 + 1)) from by
    unfold randint; rw [if_neg (by omega)]]
  exact ⟨_, rfl⟩

lemma randomPopulation_single (ms : List (String × String)) (o : Oracle)
    (p : String) (hp : byProcess ms p ≠ []) :
    ∀ (k ctr : ℕ), ∃ (pop : List (List ℕ)) (ctr' : ℕ),
      randomPopulation ms [p] o k ctr = .ok (pop, ctr') ∧ pop.length = k ∧
      ∀ a ∈ pop, a.length ≤ 1 := by
  intro k
  induction k with
  | zero =>
    intro ctr
    exact ⟨[], ctr, rfl, rfl, by intro a ha; cases ha⟩
  | succ k ih =>
    intro ctr
    obtain ⟨v, hv⟩ := random_individual_single ms o p hp ctr
    obtain ⟨pop, ctr', hrp, hlen, hones⟩ := ih (ctr + 1)
    refine ⟨[v] :: pop, ctr', ?_, by simp [hlen], ?_⟩
    · unfold randomPopulation
      simp only [hv, hrp]
    · intro a ha
      rcases List.mem_cons.mp ha with rfl | hmem
      · exact le_refl 1
      · exact hones a hmem

/-- C10 — with a process flow of length 1 (so individuals are length-1
index vectors), `pop_size ≥ 3` and `generations ≥ 1`, and a nonempty
candidate pool for the single step (so initialization succeeds), the GA
reaches `crossover`, which calls `random.randint(1, 0)` and raises
`ValueError` instead of treating the single-step flow as a no-op. -/
theorem C10_single_step_flow_raises (ms : List (String × String))
    (flow : List String) (g : Graph C W) (gens pop_size : ℕ) (rate : ℚ)
    (o : Oracle) (hflow : flow.length = 1)
    (hpool : byProcess ms (flow.headD "") ≠ [])
    (hpop : 3 ≤ pop_size) (hgens : 1 ≤ gens) :
    ga_shortest_path_process_based ms flow g gens pop_size rate o =
      .error "ValueError: empty range for randrange" := by
  obtain ⟨p, rfl⟩ := List.length_eq_one.mp hflow
  have hp : byProcess ms p ≠ [] := hpool
  obtain ⟨pop, ctr', hrp, hlen, hones⟩ := randomPopulation_single ms o p hp pop_size 0
  obtain ⟨g', rfl⟩ : ∃ g', gens = g' + 1 := ⟨gens - 1, by omega⟩
  unfold ga_shortest_path_process_based
  have hng := nextGeneration_err ms [p] g pop_size rate o pop ctr' hpop hlen hones
  have hgg : gaGenerations ms [p] g pop_size rate o (g' + 1) pop ctr' =
      .error "ValueError: empty range for randrange" := by
    unfold gaGenerations
    rw [hng]
  simp only [hrp, hgg]

/-- Witness for C10: one machine, one process step, population 3, one
generation. -/
theorem C10_single_step_flow_raises_witness :
    ((["P"] : List String).length = 1) ∧
    (byProcess [("m1", "P")] ((["P"] : List String).headD "") ≠ []) ∧
    ga_shortest_path_process_based [("m1", "P")] ["P"] (⟨[]⟩ : Graph Unit ℕ)
        1 3 0 ⟨fun _ => 0, fun _ => 0⟩ =
      .error "ValueError: empty range for randrange" :=
  ⟨by decide, by decide,
   C10_single_step_flow_raises [("m1", "P")] ["P"] (⟨[]⟩ : Graph Unit ℕ) 1 3 0
     ⟨fun _ => 0, fun _ => 0⟩ (by decide) (by decide) (by decide) (by decide)⟩

end C10Section

/-! ### C9 — `path_distance` prices missing edges as zero -/

section C9Section

variable {C : Type} {W : Type} [AddCommMonoid W]

/-- The weight of the first stored neighbor entry from `a` to `b`, when
one exists: the quantity the inner scan of `path_distance` extracts. -/
def firstEdgeWeight (g : Graph C W) (a b : String) : Option W :=
  ((g.find_node a).bind (fun node => node.neighbors.find? (fun q => q.1 == b))).map (·.2)

lemma path_distance_step (g : Graph C W) (total : W) (p : String × String) :
    (match g.find_node p.1 with
      | none => total
      | some node =>
        match node.neighbors.find? (fun q => q.1 == p.2) with
        | none => total
        | some q => total + q.2) = total + (firstEdgeWeight g p.1 p.2).getD 0 := by
  unfold firstEdgeWeight
  cases g.find_node p.1 with
  | none => simp
  | some node =>
    rcases hf : node.neighbors.find? (fun q => q.1 == p.2) with _ | q <;> simp [hf]

lemma path_distance_fold (g : Graph C W) :
    ∀ (l : List (String × String)) (total : W),
      l.foldl
        (fun total p =>
          match g.find_node p.1 with
          | none => total
          | some node =>
            match node.neighbors.find? (fun q => q.1 == p.2) with
            | none => total
            | some q => total + q.2) total =
      total + (l.map (fun p => (firstEdgeWeight g p.1 p.2).getD 0)).sum := by
  intro l
  induction l with
  | nil => intro total; simp
  | cons p l ih =>
    intro total
    rw [List.foldl_cons, ih, path_distance_step g total p]
    simp [add_assoc]

lemma path_distance_eq_sum (g : Graph C W) (path : List String) :
    path_distance g path =
      ((path.zip path.tail).map (fun p => (firstEdgeWeight g p.1 p.2).getD 0)).sum := by
  unfold path_distance
  rw [path_distance_fold g (path.zip path.tail) 0, zero_add]

lemma zip_tail_split (a b : String) (ys : List String) :
    ∀ xs : List String,
      (xs ++ a :: b :: ys).zip (xs ++ a :: b :: ys).tail =
        ((xs ++ [a]).zip (xs ++ [a]).tail) ++ (a, b) :: ((b :: ys).zip ys) := by
  intro xs
  induction xs with
  | nil => rfl
  | cons x xs ih =>
    cases xs with
    | nil => rfl
    | cons x' xs' =>
      show (x, x') :: ((x' :: xs' ++ a :: b :: ys).zip (x' :: xs' ++ a :: b :: ys).tail) =
        (x, x') :: (((x' :: xs' ++ [a]).zip (x' :: xs' ++ [a]).tail) ++
          (a, b) :: ((b :: ys).zip ys))
      rw [ih]

/-- C9 — `path_distance` (which is also the GA's fitness function through
`gaFitness`) sums, over every consecutive pair of the path, the first
stored edge weight between the pair's nodes; a consecutive pair with no
stored edge contributes exactly `0` — the segment around the missing hop
is priced as if that hop were free, with no error and no distinct
outcome (the return type carries only the total). -/
theorem C9_path_distance_missing_edge_free (g : Graph C W) :
    (∀ path : List String, path_distance g path =
      ((path.zip path.tail).map (fun p => (firstEdgeWeight g p.1 p.2).getD 0)).sum) ∧
    (∀ (xs : List String) (a b : String) (ys : List String),
      firstEdgeWeight g a b = none →
      path_distance g (xs ++ a :: b :: ys) =
        path_distance g (xs ++ [a]) + path_distance g (b :: ys)) ∧
    (∀ (a b : String) (node : Node C W) (pre : List (String × W)) (w : W)
        (rest : List (String × W)),
      g.find_node a = some node →
      node.neighbors = pre ++ (b, w) :: rest →
      (∀ q ∈ pre, q.1 ≠ b) →
      path_distance g [a, b] = w) ∧
    (∀ (ms : List (String × String)) (flow : List String) (ind : List ℕ),
      gaFitness ms flow g ind = path_distance g (decode_individual ms flow ind)) := by
  refine ⟨path_distance_eq_sum g, ?_, ?_, fun ms flow ind => rfl⟩
  · intro xs a b ys hnone
    rw [path_distance_eq_sum g, path_distance_eq_sum g, path_distance_eq_sum g,
      zip_tail_split a b ys xs, List.map_append, List.sum_append, List.map_cons,
      List.sum_cons, hnone]
    simp
  · intro a b node pre w rest hfind hneigh hpre
    have hfw : firstEdgeWeight g a b = some w := by
      unfold firstEdgeWeight
      rw [hfind, Option.some_bind, hneigh, List.find?_append]
      rw [List.find?_eq_none.mpr (fun q hq => by
        simp only [beq_iff_eq]
        exact hpre q hq)]
      rw [Option.none_or, List.find?_cons_of_pos _ (by simp)]
      rfl
    rw [path_distance_eq_sum g]
    show ((firstEdgeWeight g a b).getD 0) + 0 = w
    rw [hfw, add_zero]
    rfl

end C9Section

/-- Witness for C9, applying every part on a concrete three-node graph
(`A—B` weighted 5, no edge from `B` to `C`). -/
theorem C9_path_distance_witness :
    (path_distance (⟨[⟨"A", (), [("B", 5)]⟩, ⟨"B", (), [("A", 5)]⟩, ⟨"C", (), []⟩]⟩ :
        Graph Unit ℕ) ["A", "B", "C"] =
      (((["A", "B", "C"] : List String).zip ["B", "C"]).map
        (fun p => (firstEdgeWeight (⟨[⟨"A", (), [("B", 5)]⟩, ⟨"B", (), [("A", 5)]⟩,
          ⟨"C", (), []⟩]⟩ : Graph Unit ℕ) p.1 p.2).getD 0)).sum) ∧
    (firstEdgeWeight (⟨[⟨"A", (), [("B", 5)]⟩, ⟨"B", (), [("A", 5)]⟩, ⟨"C", (), []⟩]⟩ :
        Graph Unit ℕ) "B" "C" = none) ∧
    (path_distance (⟨[⟨"A", (), [("B", 5)]⟩, ⟨"B", (), [("A", 5)]⟩, ⟨"C", (), []⟩]⟩ :
        Graph Unit ℕ) (["A"] ++ "B" :: "C" :: []) =
      path_distance (⟨[⟨"A", (), [("B", 5)]⟩, ⟨"B", (), [("A", 5)]⟩, ⟨"C", (), []⟩]⟩ :
        Graph Unit ℕ) (["A"] ++ ["B"]) +
      path_distance (⟨[⟨"A", (), [("B", 5)]⟩, ⟨"B", (), [("A", 5)]⟩, ⟨"C", (), []⟩]⟩ :
        Graph Unit ℕ) ["C"]) ∧
    (path_distance (⟨[⟨"A", (), [("B", 5)]⟩, ⟨"B", (), [("A", 5)]⟩, ⟨"C", (), []⟩]⟩ :
        Graph Unit ℕ) ["A", "B"] = 5) := by
  have h := C9_path_distance_missing_edge_free
    (⟨[⟨"A", (), [("B", 5)]⟩, ⟨"B", (), [("A", 5)]⟩, ⟨"C", (), []⟩]⟩ : Graph Unit ℕ)
  exact ⟨h.1 ["A", "B", "C"], by decide,
    h.2.1 ["A"] "B" "C" [] (by decide),
    h.2.2.1 "A" "B" ⟨"A", (), [("B", 5)]⟩ [] 5 [] (by decide) rfl (by decide)⟩

/-! ### C3 — the complete-graph builder -/

section C3Graph

variable {C : Type} {W : Type}

lemma find_node_map_value (g : Graph C W) (f : Node C W → Node C W)
    (hf : ∀ n, (f n).value = n.value) (x : String) :
    (Graph.mk (g.nodes.map f)).find_node x = (g.find_node x).map f := by
  show (g.nodes.map f).find? (fun n => n.value == x) = _
  rw [List.find?_map]
  have : ((fun n : Node C W => n.value == x) ∘ f) = (fun n : Node C W => n.value == x) := by
    funext n
    simp [Function.comp, hf n]
  rw [this]
  rfl

lemma setNeighbor_value (n : Node C W) (b : String) (w : W) :
    (n.setNeighbor b w).value = n.value := by
  unfold Node.setNeighbor
  split <;> rfl

lemma setNeighbor_fresh (n : Node C W) (b : String) (w : W)
    (h : ∀ q ∈ n.neighbors, q.1 ≠ b) :
    n.setNeighbor b w = { n with neighbors := n.neighbors ++ [(b, w)] } := by
  unfold Node.setNeighbor
  rw [if_neg]
  simp only [List.any_eq_true, beq_iff_eq]
  rintro ⟨q, hq, hqb⟩
  exact h q hq hqb

lemma add_edge_eq_map (g : Graph C W) (a b : String) (w : W) (hab : a ≠ b)
    (ha : (g.find_node a).isSome) (hb : (g.find_node b).isSome) :
    g.add_edge a b w = Graph.mk (g.nodes.map (fun n =>
      if n.value == a then n.setNeighbor b w
      else if n.value == b then n.setNeighbor a w else n)) := by
  obtain ⟨na, hna⟩ := Option.isSome_iff_exists.mp ha
  obtain ⟨nb, hnb⟩ := Option.isSome_iff_exists.mp hb
  unfold Graph.add_edge
  rw [if_neg (by simp [hab]), if_neg (by simp [hna, hnb])]

lemma find_node_add_edge (g : Graph C W) (a b : String) (w : W) (hab : a ≠ b)
    (ha : (g.find_node a).isSome) (hb : (g.find_node b).isSome)
    (hfa : ∀ n, g.find_node a = some n → ∀ q ∈ n.neighbors, q.1 ≠ b)
    (hfb : ∀ n, g.find_node b = some n → ∀ q ∈ n.neighbors, q.1 ≠ a)
    (x : String) :
    (g.add_edge a b w).find_node x = (g.find_node x).map (fun n =>
      if x = a then { n with neighbors := n.neighbors ++ [(b, w)] }
      else if x = b then { n with neighbors := n.neighbors ++ [(a, w)] }
      else n) := by
  rw [add_edge_eq_map g a b w hab ha hb,
    find_node_map_value g _ (fun n => by
      split
      · exact setNeighbor_value n b w
      · split
        · exact setNeighbor_value n a w
        · rfl) x]
  cases hx : g.find_node x with
  | none => rfl
  | some n =>
    have hv : n.value = x := by
      have := List.find?_some hx
      simpa using this
    simp only [Option.map_some']
    congr 1
    by_cases h1 : x = a
    · subst h1
      rw [if_pos (by simp [hv]), if_pos rfl]
      exact setNeighbor_fresh n b w (hfa n hx)
    · by_cases h2 : x = b
      · subst h2
        rw [if_neg (by simp [hv, h1]), if_pos (by simp [hv]), if_neg h1, if_pos rfl]
        exact setNeighbor_fresh n a w (hfb n hx)
      · rw [if_neg (by simp [hv, h1]), if_neg (by simp [hv, h2]), if_neg h1, if_neg h2]

/-- The edge-insertion fold of `build_graph_from_aas`, over explicit
(endpoint, endpoint, weight) triples; proof-side view of the builder's
second loop. -/
def addEdges {C W : Type} (g : Graph C W) (E : List (String × String × W)) : Graph C W :=
  E.foldl (fun g e => g.add_edge e.1 e.2.1 e.2.2) g

/-- The neighbor entries a name accrues from an edge-request list. -/
def contrib {W : Type} (E : List (String × String × W)) (x : String) : List (String × W) :=
  E.filterMap (fun e =>
    if e.1 = x then some (e.2.1, e.2.2)
    else if e.2.1 = x then some (e.1, e.2.2) else none)

/-- Two requests name the same unordered endpoint pair. -/
def sameUnordered {W : Type} (e e' : String × String × W) : Prop :=
  (e'.1 = e.1 ∧ e'.2.1 = e.2.1) ∨ (e'.1 = e.2.1 ∧ e'.2.1 = e.1)

lemma addEdges_find {C W : Type} :
    ∀ (E : List (String × String × W)) (g : Graph C W),
      (∀ e ∈ E, (g.find_node e.1).isSome ∧ (g.find_node e.2.1).isSome ∧ e.1 ≠ e.2.1) →
      (∀ e ∈ E, ∀ n, g.find_node e.1 = some n → ∀ q ∈ n.neighbors, q.1 ≠ e.2.1) →
      (∀ e ∈ E, ∀ n, g.find_node e.2.1 = some n → ∀ q ∈ n.neighbors, q.1 ≠ e.1) →
      E.Pairwise (fun e e' => ¬ sameUnordered e e') →
      ∀ x, (addEdges g E).find_node x =
        (g.find_node x).map (fun n => { n with neighbors := n.neighbors ++ contrib E x }) := by
  intro E
  induction E with
  | nil =>
    intro g _ _ _ _ x
    show g.find_node x = _
    cases g.find_node x with
    | none => rfl
    | some n => simp [contrib]
  | cons e E' ih =>
    intro g hE hfa hfb hpw x
    obtain ⟨ha, hb, hab⟩ := hE e (List.mem_cons_self e E')
    have hChar := find_node_add_edge g e.1 e.2.1 e.2.2 hab ha hb
      (hfa e (List.mem_cons_self e E')) (hfb e (List.mem_cons_self e E'))
    have hpwHead : ∀ e' ∈ E', ¬ sameUnordered e e' :=
      fun e' he' => (List.pairwise_cons.mp hpw).1 e' he'
    have hpwTail := (List.pairwise_cons.mp hpw).2
    set g' := g.add_edge e.1 e.2.1 e.2.2 with hg'
    have step : addEdges g (e :: E') = addEdges g' E' := rfl
    -- the per-name update applied by the head request
    set F : Node C W → Node C W := fun n =>
      { n with neighbors := n.neighbors ++ contrib E' x } with hF
    have hE' : ∀ e' ∈ E', (g'.find_node e'.1).isSome ∧ (g'.find_node e'.2.1).isSome ∧
        e'.1 ≠ e'.2.1 := by
      intro e' he'
      obtain ⟨h1, h2, h3⟩ := hE e' (List.mem_cons_of_mem e he')
      rw [hChar e'.1, hChar e'.2.1]
      exact ⟨by simpa using h1, by simpa using h2, h3⟩
    have hfa' : ∀ e' ∈ E', ∀ n, g'.find_node e'.1 = some n →
        ∀ q ∈ n.neighbors, q.1 ≠ e'.2.1 := by
      intro e' he' n hn q hq
      rw [hChar e'.1] at hn
      obtain ⟨n0, hn0, rfl⟩ := Option.map_eq_some'.mp hn
      by_cases h1 : e'.1 = e.1
      · rw [if_pos h1] at hq
        rcases List.mem_append.mp hq with hold | hnew
        · exact hfa e' (List.mem_cons_of_mem e he') n0 (h1 ▸ hn0) q hold
        · intro hqeq
          rcases List.mem_singleton.mp hnew with rfl
          exact hpwHead e' he' (Or.inl ⟨h1, hqeq.symm⟩)
      · rw [if_neg h1] at hq
        by_cases h2 : e'.1 = e.2.1
        · rw [if_pos h2] at hq
          rcases List.mem_append.mp hq with hold | hnew
          · exact hfa e' (List.mem_cons_of_mem e he') n0 (h2 ▸ hn0) q hold
          · intro hqeq
            rcases List.mem_singleton.mp hnew with rfl
            exact hpwHead e' he' (Or.inr ⟨h2, hqeq.symm⟩)
        · rw [if_neg h2] at hq
          exact hfa e' (List.mem_cons_of_mem e he') n0 hn0 q hq
    have hfb' : ∀ e' ∈ E', ∀ n, g'.find_node e'.2.1 = some n →
        ∀ q ∈ n.neighbors, q.1 ≠ e'.1 := by
      intro e' he' n hn q hq
      rw [hChar e'.2.1] at hn
      obtain ⟨n0, hn0, rfl⟩ := Option.map_eq_some'.mp hn
      by_cases h1 : e'.2.1 = e.1
      · rw [if_pos h1] at hq
        rcases List.mem_append.mp hq with hold | hnew
        · exact hfb e' (List.mem_cons_of_mem e he') n0 (h1 ▸ hn0) q hold
        · intro hqeq
          rcases List.mem_singleton.mp hnew with rfl
          exact hpwHead e' he' (Or.inr ⟨hqeq.symm, h1⟩)
      · rw [if_neg h1] at hq
        by_cases h2 : e'.2.1 = e.2.1
        · rw [if_pos h2] at hq
          rcases List.mem_append.mp hq with hold | hnew
          · exact hfb e' (List.mem_cons_of_mem e he') n0 (h2 ▸ hn0) q hold
          · intro hqeq
            rcases List.mem_singleton.mp hnew with rfl
            exact hpwHead e' he' (Or.inl ⟨hqeq.symm, h2⟩)
        · rw [if_neg h2] at hq
          exact hfb e' (List.mem_cons_of_mem e he') n0 hn0 q hq
    rw [step, ih g' hE' hfa' hfb' hpwTail x, hChar x, Option.map_map]
    cases g.find_node x with
    | none => rfl
    | some n =>
      simp only [Option.map_some', Function.comp]
      by_cases hxa : x = e.1
      · rw [if_pos hxa]
        have hc : contrib (e :: E') x = (e.2.1, e.2.2) :: contrib E' x := by
          show List.filterMap _ (e :: E') = _
          rw [List.filterMap_cons, if_pos hxa.symm]
          rfl
        rw [hc]
        simp [hF, List.append_assoc]
      · by_cases hxb : x = e.2.1
        · rw [if_neg hxa, if_pos hxb]
          have hc : contrib (e :: E') x = (e.1, e.2.2) :: contrib E' x := by
            show List.filterMap _ (e :: E') = _
            rw [List.filterMap_cons, if_neg (fun h => hxa h.symm), if_pos hxb.symm]
            rfl
          rw [hc]
          simp [hF, List.append_assoc]
        · rw [if_neg hxa, if_neg hxb]
          have hc : contrib (e :: E') x = contrib E' x := by
            show List.filterMap _ (e :: E') = _
            rw [List.filterMap_cons, if_neg (fun h => hxa h.symm),
              if_neg (fun h => hxb h.symm)]
            rfl
          rw [hc]

lemma allPairs_mem {α : Type} :
    ∀ (l : List α) (p : α × α), p ∈ allPairs l → p.1 ∈ l ∧ p.2 ∈ l := by
  intro l
  induction l with
  | nil => intro p hp; cases hp
  | cons x xs ih =>
    intro p hp
    rcases List.mem_append.mp hp with h | h
    · obtain ⟨z, hz, rfl⟩ := List.mem_map.mp h
      exact ⟨List.mem_cons_self x xs, List.mem_cons_of_mem x hz⟩
    · obtain ⟨h1, h2⟩ := ih p h
      exact ⟨List.mem_cons_of_mem x h1, List.mem_cons_of_mem x h2⟩

lemma nodup_keys_pairwise {α : Type} (k : α → String) {l : List α}
    (h : (l.map k).Nodup) : l.Pairwise (fun a b => k a ≠ k b) :=
  List.pairwise_map.mp h

lemma allPairs_key_ne {α : Type} (k : α → String) :
    ∀ (l : List α), (l.map k).Nodup → ∀ p ∈ allPairs l, k p.1 ≠ k p.2 := by
  intro l
  induction l with
  | nil => intro _ p hp; cases hp
  | cons x xs ih =>
    intro hnd p hp
    have hx : ∀ z ∈ xs, k x ≠ k z :=
      (List.pairwise_cons.mp (nodup_keys_pairwise k hnd)).1
    rcases List.mem_append.mp hp with h | h
    · obtain ⟨z, hz, rfl⟩ := List.mem_map.mp h
      exact hx z hz
    · exact ih (List.Nodup.of_cons hnd) p h

lemma allPairs_pairwise {α : Type} (k : α → String) :
    ∀ (l : List α), (l.map k).Nodup →
      (allPairs l).Pairwise (fun p p' =>
        ¬((k p'.1 = k p.1 ∧ k p'.2 = k p.2) ∨ (k p'.1 = k p.2 ∧ k p'.2 = k p.1))) := by
  intro l
  induction l with
  | nil => exact fun _ => List.Pairwise.nil
  | cons x xs ih =>
    intro hnd
    have hx : ∀ z ∈ xs, k x ≠ k z :=
      (List.pairwise_cons.mp (nodup_keys_pairwise k hnd)).1
    have hxs : (xs.map k).Nodup := List.Nodup.of_cons hnd
    have hpxs : xs.Pairwise (fun a b => k a ≠ k b) := nodup_keys_pairwise k hxs
    rw [show allPairs (x :: xs) = xs.map (fun y => (x, y)) ++ allPairs xs from rfl,
      List.pairwise_append]
    refine ⟨?_, ih hxs, ?_⟩
    · rw [List.pairwise_map]
      refine hpxs.imp_of_mem ?_
      intro z z' hz hz' hne
      rintro (⟨h1, h2⟩ | ⟨h1, h2⟩)
      · exact hne h2.symm
      · exact hx z hz h1
    · intro p hp p' hp'
      obtain ⟨z, hz, rfl⟩ := List.mem_map.mp hp
      obtain ⟨h1', h2'⟩ := allPairs_mem xs p' hp'
      rintro (⟨h1, h2⟩ | ⟨h1, h2⟩)
      · exact hx p'.1 h1' h1.symm
      · exact hx p'.2 h2' h2.symm

lemma foldl_add_node_nodes :
    ∀ (coords : List (String × ℝ × ℝ)) (g : Graph (ℝ × ℝ) ℝ),
      (∀ e ∈ coords, e.1 ∉ g.nodeNames) → (coords.map (·.1)).Nodup →
      (coords.foldl (fun g e => g.add_node ⟨e.1, e.2, []⟩) g).nodes =
        g.nodes ++ coords.map (fun e => ⟨e.1, e.2, []⟩) := by
  intro coords
  induction coords with
  | nil => intro g _ _; simp
  | cons e rest ih =>
    intro g hfresh hnd
    have hne : ¬ (g.nodes.any (fun m =>
        m.value == (Node.mk e.1 e.2 ([] : List (String × ℝ)) : Node (ℝ × ℝ) ℝ).value) = true) := by
      simp only [List.any_eq_true, beq_iff_eq]
      rintro ⟨m, hm, hmv⟩
      exact hfresh e (List.mem_cons_self e rest)
        (List.mem_map.mpr ⟨m, hm, hmv⟩)
    show (rest.foldl _ (g.add_node ⟨e.1, e.2, []⟩)).nodes = _
    rw [show g.add_node ⟨e.1, e.2, []⟩ =
        Graph.mk (g.nodes ++ [⟨e.1, e.2, []⟩]) from by
      unfold Graph.add_node
      rw [if_neg hne]]
    have hfresh' : ∀ e' ∈ rest, e'.1 ∉
        (Graph.mk (g.nodes ++ [(⟨e.1, e.2, []⟩ : Node (ℝ × ℝ) ℝ)])).nodeNames := by
      intro e' he'
      show e'.1 ∉ (g.nodes ++ [(⟨e.1, e.2, []⟩ : Node (ℝ × ℝ) ℝ)]).map (·.value)
      rw [List.map_append]
      intro hmem
      rcases List.mem_append.mp hmem with h | h
      · exact hfresh e' (List.mem_cons_of_mem e he') h
      · have heq : e'.1 = e.1 := by simpa using h
        have hne' : e.1 ≠ e'.1 :=
          (List.pairwise_cons.mp (nodup_keys_pairwise (·.1) hnd)).1 e' he'
        exact hne' heq.symm
    have hih := ih (Graph.mk (g.nodes ++ [(⟨e.1, e.2, []⟩ : Node (ℝ × ℝ) ℝ)]))
      hfresh' (List.Nodup.of_cons hnd)
    rw [hih]
    simp

lemma find?_key {α : Type} (k : α → String) :
    ∀ (l : List α), (l.map k).Nodup → ∀ e ∈ l,
      l.find? (fun z => k z == k e) = some e := by
  intro l
  induction l with
  | nil => intro _ e he; cases he
  | cons y ys ih =>
    intro hnd e he
    rcases List.mem_cons.mp he with rfl | hmem
    · exact List.find?_cons_of_pos _ (by simp)
    · have hy : k y ≠ k e :=
        (List.pairwise_cons.mp (nodup_keys_pairwise k hnd)).1 e hmem
      rw [List.find?_cons_of_neg _ (by simpa using hy)]
      exact ih (List.Nodup.of_cons hnd) e hmem

lemma find_node_mk_map (coords : List (String × ℝ × ℝ)) (x : String) :
    (Graph.mk (coords.map (fun e => ⟨e.1, e.2, []⟩)) : Graph (ℝ × ℝ) ℝ).find_node x =
      (coords.find? (fun e => e.1 == x)).map (fun e => ⟨e.1, e.2, []⟩) := by
  show (coords.map (fun e => (⟨e.1, e.2, []⟩ : Node (ℝ × ℝ) ℝ))).find?
      (fun n => n.value == x) = _
  rw [List.find?_map]
  rfl

lemma filterMap_all_some {α β : Type} (sel : α → Option β) (f : α → β) :
    ∀ l : List α, (∀ a ∈ l, sel a = some (f a)) → l.filterMap sel = l.map f := by
  intro l
  induction l with
  | nil => intro _; rfl
  | cons a l ih =>
    intro h
    rw [List.filterMap_cons_some (h a (List.mem_cons_self a l)), List.map_cons,
      ih (fun a ha => h a (List.mem_cons_of_mem _ ha))]

lemma filterMap_key_single {β : Type} (e : String × ℝ × ℝ) (f : (String × ℝ × ℝ) → β) :
    ∀ xs : List (String × ℝ × ℝ), (xs.map (·.1)).Nodup → e ∈ xs →
      xs.filterMap (fun z => if z.1 = e.1 then some (f z) else none) = [f e] := by
  intro xs
  induction xs with
  | nil => intro _ he; cases he
  | cons y ys ih =>
    intro hnd he
    rcases List.mem_cons.mp he with rfl | hmem
    · rw [List.filterMap_cons, if_pos (rfl : e.1 = e.1)]
      show f e :: List.filterMap (fun z => if z.1 = e.1 then some (f z) else none) ys = [f e]
      rw [List.filterMap_eq_nil_iff.mpr (fun z hz => ?_)]
      refine if_neg (fun hz1 => ?_)
      exact (List.pairwise_cons.mp (nodup_keys_pairwise (·.1) hnd)).1 z hz hz1.symm
    · have hy : y.1 ≠ e.1 :=
        (List.pairwise_cons.mp (nodup_keys_pairwise (·.1) hnd)).1 e hmem
      rw [List.filterMap_cons, if_neg hy]
      exact ih (List.Nodup.of_cons hnd) hmem

lemma contrib_cons {W : Type} (a b : String) (w : W)
    (E : List (String × String × W)) (x : String) :
    contrib ((a, b, w) :: E) x =
      (if a = x then (b, w) :: contrib E x
       else if b = x then (a, w) :: contrib E x else contrib E x) := by
  by_cases h1 : a = x
  · simp only [contrib, List.filterMap_cons, if_pos h1]
  · by_cases h2 : b = x
    · simp only [contrib, List.filterMap_cons, if_neg h1, if_pos h2]
    · simp only [contrib, List.filterMap_cons, if_neg h1, if_neg h2]

lemma contrib_append {W : Type} (E1 E2 : List (String × String × W)) (x : String) :
    contrib (E1 ++ E2) x = contrib E1 x ++ contrib E2 x :=
  List.filterMap_append ..

lemma contrib_nil_of_ne {W : Type} :
    ∀ (E : List (String × String × W)) (x : String),
      (∀ e ∈ E, e.1 ≠ x ∧ e.2.1 ≠ x) → contrib E x = [] := by
  intro E
  induction E with
  | nil => intro x _; rfl
  | cons e E ih =>
    intro x h
    obtain ⟨h1, h2⟩ := h e (List.mem_cons_self e E)
    rw [show e = (e.1, e.2.1, e.2.2) from rfl, contrib_cons, if_neg h1, if_neg h2]
    exact ih x (fun e' he' => h e' (List.mem_cons_of_mem e he'))

lemma contrib_row_self (wf : (String × ℝ × ℝ) → (String × ℝ × ℝ) → ℝ)
    (x : String × ℝ × ℝ) :
    ∀ xs : List (String × ℝ × ℝ),
      contrib (xs.map (fun z => (x.1, z.1, wf x z))) x.1 =
        xs.map (fun z => (z.1, wf x z)) := by
  intro xs
  induction xs with
  | nil => rfl
  | cons z zs ih =>
    rw [List.map_cons, contrib_cons, if_pos rfl, ih, List.map_cons]

lemma contrib_row_other (wf : (String × ℝ × ℝ) → (String × ℝ × ℝ) → ℝ)
    (x e : String × ℝ × ℝ) (hxe : x.1 ≠ e.1) :
    ∀ xs : List (String × ℝ × ℝ), (xs.map (·.1)).Nodup → e ∈ xs →
      contrib (xs.map (fun z => (x.1, z.1, wf x z))) e.1 = [(x.1, wf x e)] := by
  intro xs
  induction xs with
  | nil => intro _ he; cases he
  | cons z zs ih =>
    intro hnd he
    rw [List.map_cons, contrib_cons, if_neg hxe]
    rcases List.mem_cons.mp he with rfl | hmem
    · rw [if_pos rfl, contrib_nil_of_ne _ _ (fun e' he' => ?_)]
      obtain ⟨z', hz', rfl⟩ := List.mem_map.mp he'
      have hz'e : z'.1 ≠ e.1 :=
        fun hc => (List.pairwise_cons.mp
          (nodup_keys_pairwise (fun q : String × ℝ × ℝ => q.1) hnd)).1 z' hz' hc.symm
      exact ⟨hxe, hz'e⟩
    · have hz : z.1 ≠ e.1 :=
        (List.pairwise_cons.mp
          (nodup_keys_pairwise (fun q : String × ℝ × ℝ => q.1) hnd)).1 e hmem
      rw [if_neg hz]
      exact ih (List.Nodup.of_cons hnd) hmem

/-- The neighbor entries the complete-graph request list assigns to the
name of an entry `e`: one entry per other coordinate, in input order,
weighted by the (symmetric) weight of the two entries. -/
lemma contrib_pairs (wf : (String × ℝ × ℝ) → (String × ℝ × ℝ) → ℝ)
    (hw : ∀ e1 e2, wf e1 e2 = wf e2 e1) :
    ∀ coords : List (String × ℝ × ℝ), (coords.map (·.1)).Nodup →
      ∀ e ∈ coords,
        contrib ((allPairs coords).map (fun p => (p.1.1, p.2.1, wf p.1 p.2))) e.1 =
          (coords.filter (fun e2 => e2.1 != e.1)).map (fun e2 => (e2.1, wf e e2)) := by
  intro coords
  induction coords with
  | nil => intro _ e he; cases he
  | cons x xs ih =>
    intro hnd e he
    have hx : ∀ z ∈ xs, x.1 ≠ z.1 :=
      (List.pairwise_cons.mp
        (nodup_keys_pairwise (fun q : String × ℝ × ℝ => q.1) hnd)).1
    have hxs : (xs.map (·.1)).Nodup := List.Nodup.of_cons hnd
    have hsplit : contrib ((allPairs (x :: xs)).map
        (fun p => (p.1.1, p.2.1, wf p.1 p.2))) e.1 =
        contrib (xs.map (fun z => (x.1, z.1, wf x z))) e.1 ++
        contrib ((allPairs xs).map (fun p => (p.1.1, p.2.1, wf p.1 p.2))) e.1 := by
      rw [show allPairs (x :: xs) = xs.map (fun y => (x, y)) ++ allPairs xs from rfl,
        List.map_append, contrib_append, List.map_map]
      rfl
    rw [hsplit]
    rcases List.mem_cons.mp he with rfl | hmem
    · rw [contrib_row_self wf e xs,
        contrib_nil_of_ne _ _ (fun e' he' => ?_), List.append_nil,
        List.filter_cons_of_neg (by simp),
        List.filter_eq_self.mpr (fun z hz => by simpa using (hx z hz).symm)]
      obtain ⟨p, hp, rfl⟩ := List.mem_map.mp he'
      obtain ⟨h1, h2⟩ := allPairs_mem xs p hp
      exact ⟨fun hc => hx p.1 h1 hc.symm, fun hc => hx p.2 h2 hc.symm⟩
    · have hxe : x.1 ≠ e.1 := hx e hmem
      rw [contrib_row_other wf x e hxe xs hxs hmem, ih hxs e hmem,
        List.filter_cons_of_pos (by simpa using hxe), List.map_cons, hw x e]
      rfl

lemma add_edge_nodes_exists {C W : Type} (g : Graph C W) (a b : String) (w : W) :
    ∃ f : Node C W → Node C W, (∀ n, (f n).value = n.value) ∧
      (g.add_edge a b w).nodes = g.nodes.map f := by
  unfold Graph.add_edge
  split
  · exact ⟨id, fun n => rfl, (List.map_id _).symm⟩
  · split
    · exact ⟨id, fun n => rfl, (List.map_id _).symm⟩
    · refine ⟨fun n => if n.value == a then n.setNeighbor b w
        else if n.value == b then n.setNeighbor a w else n, fun n => ?_, rfl⟩
      show (if n.value == a then n.setNeighbor b w
        else if n.value == b then n.setNeighbor a w else n).value = n.value
      split
      · exact setNeighbor_value n b w
      · split
        · exact setNeighbor_value n a w
        · rfl

lemma addEdges_nodes_exists {C W : Type} :
    ∀ (E : List (String × String × W)) (g : Graph C W),
      ∃ f : Node C W → Node C W, (∀ n, (f n).value = n.value) ∧
        (addEdges g E).nodes = g.nodes.map f := by
  intro E
  induction E with
  | nil => exact fun g => ⟨id, fun n => rfl, (List.map_id _).symm⟩
  | cons e E' ih =>
    intro g
    obtain ⟨f0, hf0v, hf0⟩ := add_edge_nodes_exists g e.1 e.2.1 e.2.2
    obtain ⟨f1, hf1v, hf1⟩ := ih (g.add_edge e.1 e.2.1 e.2.2)
    refine ⟨f1 ∘ f0, fun n => ?_, ?_⟩
    · show (f1 (f0 n)).value = n.value
      rw [hf1v (f0 n), hf0v n]
    · show (addEdges (g.add_edge e.1 e.2.1 e.2.2) E').nodes = _
      rw [hf1, hf0, List.map_map]

lemma sum_map_const_nat {α : Type} : ∀ (l : List α) (c : ℕ),
    (l.map (fun _ => c)).sum = l.length * c := by
  intro l c
  induction l with
  | nil => simp
  | cons x xs ih =>
    rw [List.map_cons, List.sum_cons, ih, List.length_cons]
    ring

lemma length_filter_ne :
    ∀ (coords : List (String × ℝ × ℝ)), (coords.map (·.1)).Nodup →
      ∀ e ∈ coords, (coords.filter (fun z => z.1 != e.1)).length = coords.length - 1 := by
  intro coords
  induction coords with
  | nil => intro _ e he; cases he
  | cons x xs ih =>
    intro hnd e he
    have hx : ∀ z ∈ xs, x.1 ≠ z.1 :=
      (List.pairwise_cons.mp
        (nodup_keys_pairwise (fun q : String × ℝ × ℝ => q.1) hnd)).1
    rcases List.mem_cons.mp he with rfl | hmem
    · rw [List.filter_cons_of_neg (by simp),
        List.filter_eq_self.mpr (fun z hz => by simpa using (hx z hz).symm)]
      simp
    · have hlen : 1 ≤ xs.length := List.length_pos.mpr (List.ne_nil_of_mem hmem)
      rw [List.filter_cons_of_pos (by simpa using hx e hmem),
        List.length_cons, ih (List.Nodup.of_cons hnd) e hmem]
      simp only [List.length_cons]
      omega

/-- C3 — `build_graph_from_aas` over `n` distinct names adds each name as
a node (the node-name list is exactly the input name list), gives every
node one neighbor entry per other name — in input order, weighted by the
haversine distance of the two entries' coordinates — hence degree
`n - 1`, a total stored-neighbor count of `n * (n - 1)` and an edge count
of `n * (n - 1) / 2`, and the nested request loop never requests a
self-edge. -/
theorem C3_build_graph_complete (coords : List (String × ℝ × ℝ))
    (hnd : (coords.map (·.1)).Nodup) :
    (build_graph_from_aas coords).nodeNames = coords.map (·.1) ∧
    (∀ e ∈ coords, ∃ node, (build_graph_from_aas coords).find_node e.1 = some node ∧
      node.neighbors = (coords.filter (fun e2 => e2.1 != e.1)).map
        (fun e2 => (e2.1, haversine e.2.1 e.2.2 e2.2.1 e2.2.2)) ∧
      node.neighbors.length = coords.length - 1) ∧
    (build_graph_from_aas coords).totalNeighbors = coords.length * (coords.length - 1) ∧
    (build_graph_from_aas coords).edgeCount = coords.length * (coords.length - 1) / 2 ∧
    (∀ p ∈ allPairs coords, p.1.1 ≠ p.2.1) := by
  set wf : (String × ℝ × ℝ) → (String × ℝ × ℝ) → ℝ :=
    fun e1 e2 => haversine e1.2.1 e1.2.2 e2.2.1 e2.2.2 with hwf
  have hw : ∀ e1 e2, wf e1 e2 = wf e2 e1 := fun e1 e2 => haversine_comm ..
  set E : List (String × String × ℝ) :=
    (allPairs coords).map (fun p => (p.1.1, p.2.1, wf p.1 p.2)) with hE
  set g0 : Graph (ℝ × ℝ) ℝ :=
    coords.foldl (fun g e => g.add_node ⟨e.1, e.2, []⟩) Graph.empty with hg0def
  have hg0nodes : g0.nodes = coords.map (fun e => ⟨e.1, e.2, []⟩) := by
    rw [hg0def, foldl_add_node_nodes coords Graph.empty (fun e _ he => by cases he) hnd]
    rfl
  have hg0 : g0 = Graph.mk (coords.map (fun e => ⟨e.1, e.2, []⟩)) := by
    rw [show g0 = Graph.mk g0.nodes from rfl, hg0nodes]
  have hbuild : build_graph_from_aas coords = addEdges g0 E := by
    rw [hE]
    unfold build_graph_from_aas addEdges
    rw [List.foldl_map]
  have hfind0 : ∀ e ∈ coords, g0.find_node e.1 =
      some (⟨e.1, e.2, []⟩ : Node (ℝ × ℝ) ℝ) := by
    intro e he
    rw [hg0, find_node_mk_map coords e.1,
      find?_key (fun z : String × ℝ × ℝ => z.1) coords hnd e he]
    rfl
  have hself : ∀ p ∈ allPairs coords, p.1.1 ≠ p.2.1 :=
    allPairs_key_ne (fun q : String × ℝ × ℝ => q.1) coords hnd
  have hcond1 : ∀ t ∈ E, (g0.find_node t.1).isSome ∧ (g0.find_node t.2.1).isSome ∧
      t.1 ≠ t.2.1 := by
    intro t ht
    obtain ⟨p, hp, rfl⟩ := List.mem_map.mp ht
    obtain ⟨h1, h2⟩ := allPairs_mem coords p hp
    exact ⟨by rw [show ((p.1.1, p.2.1, wf p.1 p.2) : String × String × ℝ).1 = p.1.1
        from rfl, hfind0 p.1 h1]; rfl,
      by rw [show ((p.1.1, p.2.1, wf p.1 p.2) : String × String × ℝ).2.1 = p.2.1
        from rfl, hfind0 p.2 h2]; rfl,
      hself p hp⟩
  have hcond2 : ∀ t ∈ E, ∀ n, g0.find_node t.1 = some n →
      ∀ q ∈ n.neighbors, q.1 ≠ t.2.1 := by
    intro t ht n hn q hq
    obtain ⟨p, hp, rfl⟩ := List.mem_map.mp ht
    obtain ⟨h1, -⟩ := allPairs_mem coords p hp
    rw [show ((p.1.1, p.2.1, wf p.1 p.2) : String × String × ℝ).1 = p.1.1 from rfl,
      hfind0 p.1 h1] at hn
    obtain rfl := (Option.some.inj hn).symm
    cases hq
  have hcond3 : ∀ t ∈ E, ∀ n, g0.find_node t.2.1 = some n →
      ∀ q ∈ n.neighbors, q.1 ≠ t.1 := by
    intro t ht n hn q hq
    obtain ⟨p, hp, rfl⟩ := List.mem_map.mp ht
    obtain ⟨-, h2⟩ := allPairs_mem coords p hp
    rw [show ((p.1.1, p.2.1, wf p.1 p.2) : String × String × ℝ).2.1 = p.2.1 from rfl,
      hfind0 p.2 h2] at hn
    obtain rfl := (Option.some.inj hn).symm
    cases hq
  have hcond4 : E.Pairwise (fun e e' => ¬ sameUnordered e e') := by
    rw [hE]
    refine List.pairwise_map.mpr ?_
    exact (allPairs_pairwise (fun q : String × ℝ × ℝ => q.1) coords hnd).imp
      (fun h => h)
  have hchar := addEdges_find E g0 hcond1 hcond2 hcond3 hcond4
  -- full neighbor description per entry
  have hnode : ∀ e ∈ coords, (build_graph_from_aas coords).find_node e.1 =
      some ⟨e.1, e.2, (coords.filter (fun e2 => e2.1 != e.1)).map
        (fun e2 => (e2.1, wf e e2))⟩ := by
    intro e he
    rw [hbuild, hchar e.1, hfind0 e he]
    simp only [Option.map_some']
    congr 1
    show (⟨e.1, e.2, [] ++ contrib E e.1⟩ : Node (ℝ × ℝ) ℝ) = _
    rw [List.nil_append, hE, contrib_pairs wf hw coords hnd e he]
  obtain ⟨F, hFv, hFnodes⟩ := addEdges_nodes_exists E g0
  have hnodes : (build_graph_from_aas coords).nodes =
      coords.map (fun e => F ⟨e.1, e.2, []⟩) := by
    rw [hbuild, hFnodes, hg0nodes, List.map_map]
    rfl
  have hnames : (build_graph_from_aas coords).nodeNames = coords.map (·.1) := by
    rw [Graph.nodeNames, hnodes, List.map_map]
    refine List.map_congr_left (fun e he => ?_)
    show (F ⟨e.1, e.2, []⟩).value = e.1
    rw [hFv]
  have hnamesNodup : ((build_graph_from_aas coords).nodes.map (·.value)).Nodup := by
    show (build_graph_from_aas coords).nodeNames.Nodup
    rw [hnames]
    exact hnd
  -- each listed node is the one found under its name
  have hlisted : ∀ e ∈ coords, F ⟨e.1, e.2, []⟩ =
      (⟨e.1, e.2, (coords.filter (fun e2 => e2.1 != e.1)).map
        (fun e2 => (e2.1, wf e e2))⟩ : Node (ℝ × ℝ) ℝ) := by
    intro e he
    have hmem : F ⟨e.1, e.2, []⟩ ∈ (build_graph_from_aas coords).nodes := by
      rw [hnodes]
      exact List.mem_map.mpr ⟨e, he, rfl⟩
    have hvalue : (F ⟨e.1, e.2, []⟩).value = e.1 := hFv _
    have hfound : (build_graph_from_aas coords).find_node e.1 =
        some (F ⟨e.1, e.2, []⟩) := by
      have hthis := find?_key (fun n : Node (ℝ × ℝ) ℝ => n.value)
        (build_graph_from_aas coords).nodes hnamesNodup _ hmem
      simp only [hvalue] at hthis
      exact hthis
    exact Option.some.inj (hfound.symm.trans (hnode e he))
  have hdeg : ∀ e ∈ coords,
      ((coords.filter (fun e2 => e2.1 != e.1)).map
        (fun e2 => (e2.1, wf e e2))).length = coords.length - 1 := by
    intro e he
    rw [List.length_map]
    exact length_filter_ne coords hnd e he
  have htotal : (build_graph_from_aas coords).totalNeighbors =
      coords.length * (coords.length - 1) := by
    rw [Graph.totalNeighbors, hnodes, List.map_map]
    have hptwise : coords.map ((fun n : Node (ℝ × ℝ) ℝ => n.neighbors.length) ∘
        (fun e => F ⟨e.1, e.2, []⟩)) = coords.map (fun _ => coords.length - 1) := by
      refine List.map_congr_left (fun e he => ?_)
      show (F ⟨e.1, e.2, []⟩).neighbors.length = _
      rw [hlisted e he]
      exact hdeg e he
    rw [hptwise, sum_map_const_nat]
  refine ⟨hnames, ?_, htotal, ?_, hself⟩
  · intro e he
    exact ⟨_, hnode e he, rfl, hdeg e he⟩
  · rw [Graph.edgeCount, htotal]

/-- Witness for C3 on two concrete named coordinates. -/
theorem C3_build_graph_complete_witness :
    ((([("A", (0 : ℝ), (0 : ℝ)), ("B", (0 : ℝ), (1 : ℝ))] :
        List (String × ℝ × ℝ)).map (·.1)).Nodup) ∧
    ((build_graph_from_aas [("A", (0 : ℝ), (0 : ℝ)), ("B", (0 : ℝ), (1 : ℝ))]).nodeNames =
      ["A", "B"] ∧
    (build_graph_from_aas [("A", (0 : ℝ), (0 : ℝ)),
      ("B", (0 : ℝ), (1 : ℝ))]).totalNeighbors = 2 * 1) := by
  have h := C3_build_graph_complete
    [("A", (0 : ℝ), (0 : ℝ)), ("B", (0 : ℝ), (1 : ℝ))] (by decide)
  exact ⟨by decide, by simpa using h.1, by simpa using h.2.2.1⟩

end C3Graph

/-! ### C4 — Dijkstra outcomes: no-path versus degenerate success -/

section C4Section

variable {C : Type} {W : Type} [LinearOrderedAddCommMonoid W]

lemma popMin_mem :
    ∀ (l : List (W × String)) (e : W × String) (rest : List (W × String)),
      popMin l = some (e, rest) → e ∈ l ∧ ∀ x ∈ rest, x ∈ l := by
  intro l
  induction l with
  | nil => intro e rest h; cases h
  | cons a l' ih =>
    intro e rest h
    unfold popMin at h
    split at h
    · obtain ⟨rfl, rfl⟩ := Prod.mk.inj (Option.some.inj h)
      exact ⟨List.mem_cons_self a l', by intro x hx; cases hx⟩
    · rename_i m rest' hm
      split at h
      · obtain ⟨rfl, rfl⟩ := Prod.mk.inj (Option.some.inj h)
        exact ⟨List.mem_cons_self a l', fun x hx => List.mem_cons_of_mem a hx⟩
      · obtain ⟨rfl, rfl⟩ := Prod.mk.inj (Option.some.inj h)
        obtain ⟨h1, h2⟩ := ih m rest' hm
        refine ⟨List.mem_cons_of_mem a h1, fun x hx => ?_⟩
        rcases List.mem_cons.mp hx with rfl | hx'
        · exact List.mem_cons_self x l'
        · exact List.mem_cons_of_mem a (h2 x hx')

lemma relax_fold_inv (g : Graph C W) (s : String) (n : String) (d : W)
    (node : Node C W) (hreach : Reach g s n) (hfind : g.find_node n = some node) :
    ∀ (neighs : List (String × W))
      (acc : List (W × String) × List (String × W) × List (String × String)),
      (∀ p ∈ neighs, p ∈ node.neighbors) →
      (∀ q ∈ acc.1, Reach g s q.2) → (∀ e ∈ acc.2.1, Reach g s e.1) →
      (∀ q ∈ (neighs.foldl
        (fun (acc : List (W × String) × List (String × W) × List (String × String)) q =>
          let nd := d + q.2
          match lookupA acc.2.1 q.1 with
          | some old =>
            if nd < old then ((nd, q.1) :: acc.1, (q.1, nd) :: acc.2.1, (q.1, n) :: acc.2.2)
            else acc
          | none => ((nd, q.1) :: acc.1, (q.1, nd) :: acc.2.1, (q.1, n) :: acc.2.2)) acc).1,
        Reach g s q.2) ∧
      (∀ e ∈ (neighs.foldl
        (fun (acc : List (W × String) × List (String × W) × List (String × String)) q =>
          let nd := d + q.2
          match lookupA acc.2.1 q.1 with
          | some old =>
            if nd < old then ((nd, q.1) :: acc.1, (q.1, nd) :: acc.2.1, (q.1, n) :: acc.2.2)
            else acc
          | none => ((nd, q.1) :: acc.1, (q.1, nd) :: acc.2.1, (q.1, n) :: acc.2.2)) acc).2.1,
        Reach g s e.1) := by
  intro neighs
  induction neighs with
  | nil => intro acc _ hq hd; exact ⟨hq, hd⟩
  | cons p rest ih =>
    intro acc hmem hq hd
    have hp : p ∈ node.neighbors := hmem p (List.mem_cons_self p rest)
    have hpr : Reach g s p.1 := Reach.step hreach hfind (by
      rw [show ((p.1, p.2) : String × W) = p from rfl]
      exact hp)
    rw [List.foldl_cons]
    have hstep : ∀ x ∈ (match lookupA acc.2.1 p.1 with
        | some old => if d + p.2 < old
            then ((d + p.2, p.1) :: acc.1, (p.1, d + p.2) :: acc.2.1, (p.1, n) :: acc.2.2)
            else acc
        | none => ((d + p.2, p.1) :: acc.1, (p.1, d + p.2) :: acc.2.1,
            (p.1, n) :: acc.2.2) :
          List (W × String) × List (String × W) × List (String × String)).1,
        Reach g s x.2 := by
      split
      · split
        · intro x hx
          rcases List.mem_cons.mp hx with rfl | hx'
          · exact hpr
          · exact hq x hx'
        · exact hq
      · intro x hx
        rcases List.mem_cons.mp hx with rfl | hx'
        · exact hpr
        · exact hq x hx'
    have hstep2 : ∀ x ∈ (match lookupA acc.2.1 p.1 with
        | some old => if d + p.2 < old
            then ((d + p.2, p.1) :: acc.1, (p.1, d + p.2) :: acc.2.1, (p.1, n) :: acc.2.2)
            else acc
        | none => ((d + p.2, p.1) :: acc.1, (p.1, d + p.2) :: acc.2.1,
            (p.1, n) :: acc.2.2) :
          List (W × String) × List (String × W) × List (String × String)).2.1,
        Reach g s x.1 := by
      split
      · split
        · intro x hx
          rcases List.mem_cons.mp hx with rfl | hx'
          · exact hpr
          · exact hd x hx'
        · exact hd
      · intro x hx
        rcases List.mem_cons.mp hx with rfl | hx'
        · exact hpr
        · exact hd x hx'
    exact ih _ (fun q hq' => hmem q (List.mem_cons_of_mem p hq')) hstep hstep2

lemma dijkstraLoop_reach (g : Graph C W) (s goal : String) :
    ∀ (fuel : ℕ) (queue : List (W × String)) (dist : List (String × W))
      (prev : List (String × String)) (visited : List String) (steps : ℕ),
      (∀ q ∈ queue, Reach g s q.2) → (∀ e ∈ dist, Reach g s e.1) →
      ∀ e ∈ (dijkstraLoop g goal fuel queue dist prev visited steps).1,
        Reach g s e.1 := by
  intro fuel
  induction fuel with
  | zero => intro queue dist prev visited steps _ hd e he; exact hd e he
  | succ fuel ih =>
    intro queue dist prev visited steps hq hd
    unfold dijkstraLoop
    split
    · exact hd
    · rename_i d n rest hpop
      obtain ⟨hmem, hrest⟩ := popMin_mem queue (d, n) rest hpop
      have hqrest : ∀ q ∈ rest, Reach g s q.2 := fun q hq' => hq q (hrest q hq')
      have hreach : Reach g s n := hq (d, n) hmem
      split
      · exact ih rest dist prev visited steps hqrest hd
      · split
        · exact hd
        · dsimp only
          split
          · rename_i node hfind
            obtain ⟨h1, h2⟩ := relax_fold_inv g s n d node hreach hfind
              node.neighbors (rest, dist, prev) (fun p hp => hp) hqrest hd
            exact ih _ _ _ _ _ h1 h2
          · exact ih _ _ _ _ _ hqrest hd

/-- The invariant tying `dist` to `prev`: every priced name is the start
or has a predecessor entry. -/
def DistPrevInv (s : String) (dist : List (String × W))
    (prev : List (String × String)) : Prop :=
  ∀ e ∈ dist, e.1 = s ∨ ∃ pr ∈ prev, pr.1 = e.1

lemma relax_fold_prev (s : String) (n : String) (d : W) :
    ∀ (neighs : List (String × W))
      (acc : List (W × String) × List (String × W) × List (String × String)),
      DistPrevInv s acc.2.1 acc.2.2 →
      DistPrevInv s (neighs.foldl
        (fun (acc : List (W × String) × List (String × W) × List (String × String)) q =>
          let nd := d + q.2
          match lookupA acc.2.1 q.1 with
          | some old =>
            if nd < old then ((nd, q.1) :: acc.1, (q.1, nd) :: acc.2.1, (q.1, n) :: acc.2.2)
            else acc
          | none => ((nd, q.1) :: acc.1, (q.1, nd) :: acc.2.1, (q.1, n) :: acc.2.2)) acc).2.1
        ((neighs.foldl
        (fun (acc : List (W × String) × List (String × W) × List (String × String)) q =>
          let nd := d + q.2
          match lookupA acc.2.1 q.1 with
          | some old =>
            if nd < old then ((nd, q.1) :: acc.1, (q.1, nd) :: acc.2.1, (q.1, n) :: acc.2.2)
            else acc
          | none => ((nd, q.1) :: acc.1, (q.1, nd) :: acc.2.1, (q.1, n) :: acc.2.2)) acc).2.2) := by
  intro neighs
  induction neighs with
  | nil => intro acc h; exact h
  | cons p rest ih =>
    intro acc h
    rw [List.foldl_cons]
    refine ih _ ?_
    show DistPrevInv s (match lookupA acc.2.1 p.1 with
        | some old => if d + p.2 < old
            then ((d + p.2, p.1) :: acc.1, (p.1, d + p.2) :: acc.2.1, (p.1, n) :: acc.2.2)
            else acc
        | none => ((d + p.2, p.1) :: acc.1, (p.1, d + p.2) :: acc.2.1,
            (p.1, n) :: acc.2.2) :
          List (W × String) × List (String × W) × List (String × String)).2.1
      (match lookupA acc.2.1 p.1 with
        | some old => if d + p.2 < old
            then ((d + p.2, p.1) :: acc.1, (p.1, d + p.2) :: acc.2.1, (p.1, n) :: acc.2.2)
            else acc
        | none => ((d + p.2, p.1) :: acc.1, (p.1, d + p.2) :: acc.2.1,
            (p.1, n) :: acc.2.2) :
          List (W × String) × List (String × W) × List (String × String)).2.2
    split
    · split
      · intro e he
        rcases List.mem_cons.mp he with rfl | he'
        · exact Or.inr ⟨(p.1, n), List.mem_cons_self _ _, rfl⟩
        · rcases h e he' with h1 | ⟨pr, hpr, hpr1⟩
          · exact Or.inl h1
          · exact Or.inr ⟨pr, List.mem_cons_of_mem _ hpr, hpr1⟩
      · exact h
    · intro e he
      rcases List.mem_cons.mp he with rfl | he'
      · exact Or.inr ⟨(p.1, n), List.mem_cons_self _ _, rfl⟩
      · rcases h e he' with h1 | ⟨pr, hpr, hpr1⟩
        · exact Or.inl h1
        · exact Or.inr ⟨pr, List.mem_cons_of_mem _ hpr, hpr1⟩

lemma dijkstraLoop_prev (g : Graph C W) (s goal : String) :
    ∀ (fuel : ℕ) (queue : List (W × String)) (dist : List (String × W))
      (prev : List (String × String)) (visited : List String) (steps : ℕ),
      DistPrevInv s dist prev →
      DistPrevInv s (dijkstraLoop g goal fuel queue dist prev visited steps).1
        (dijkstraLoop g goal fuel queue dist prev visited steps).2.1 := by
  intro fuel
  induction fuel with
  | zero => intro queue dist prev visited steps h; exact h
  | succ fuel ih =>
    intro queue dist prev visited steps h
    unfold dijkstraLoop
    split
    · exact h
    · rename_i d n rest hpop
      split
      · exact ih rest dist prev visited steps h
      · split
        · exact h
        · dsimp only
          split
          · rename_i node hfind
            exact ih _ _ _ _ _ (relax_fold_prev s n d node.neighbors (rest, dist, prev) h)
          · exact ih _ _ _ _ _ h

lemma rebuildPath_length (prev : List (String × String)) (start : String) :
    ∀ (fuel : ℕ) (cur : String) (acc : List String),
      acc.length ≤ (rebuildPath prev start fuel cur acc).length := by
  intro fuel
  induction fuel with
  | zero => intro cur acc; exact le_refl _
  | succ fuel ih =>
    intro cur acc
    unfold rebuildPath
    split
    · exact le_refl _
    · split
      · exact le_refl _
      · rename_i p hp
        calc acc.length ≤ (acc ++ [p]).length := by simp
          _ ≤ _ := ih p (acc ++ [p])

lemma lookupA_some_key {α : Type} {l : List (String × α)} {k : String} {v : α}
    (h : lookupA l k = some v) : ∃ p ∈ l, p.1 = k := by
  unfold lookupA at h
  obtain ⟨p, hp, -⟩ := Option.map_eq_some'.mp h
  exact ⟨p, List.mem_of_find?_eq_some hp, by simpa using List.find?_some hp⟩

lemma lookupA_isSome_of_key {α : Type} {l : List (String × α)} {k : String}
    (h : ∃ p ∈ l, p.1 = k) : ∃ v, lookupA l k = some v := by
  obtain ⟨p, hp, hk⟩ := h
  have hs : (l.find? (fun q => q.1 == k)).isSome := by
    rw [List.find?_isSome]
    exact ⟨p, hp, by simpa using hk⟩
  obtain ⟨q, hq⟩ := Option.isSome_iff_exists.mp hs
  exact ⟨q.2, by unfold lookupA; rw [hq]; rfl⟩

lemma dijkstraRun_self (g : Graph C W) (s : String) :
    dijkstraRun g s s = ([(s, 0)], [], 1) := by
  show dijkstraLoop g s ((g.nodes.length + 1) * (g.totalNeighbors + 1) + 1 + 1)
    [((0 : W), s)] [(s, 0)] [] [] 0 = _
  unfold dijkstraLoop
  simp [popMin]

/-- **C4.** For every graph and every start/goal pair of node names present in
the graph: if the goal is unreachable from the start (no chain of stored
neighbor entries connects them), the Dijkstra search reports the distinct
no-path outcome — empty path with infinite cost — in both `dijkstra_path` and
`run_dijkstra`; if `start = goal` it succeeds degenerately with the single-node
path `[start]` and distance `0`; `run_dijkstra` reports the same path and cost
as `dijkstra_path`; every non-degenerate success (`start ≠ goal`, nonempty
path) has a path of length at least 2; and the three outcome shapes — `[]`,
`[start]`, and a length-two-or-more path — are pairwise distinguishable. -/
theorem C4_dijkstra_outcomes (g : Graph C W) (s t : String)
    (hs : s ∈ g.nodeNames) (ht : t ∈ g.nodeNames) :
    (¬ Reach g s t →
      dijkstra_path g s t = ([], (⊤ : WithTop W)) ∧
      (run_dijkstra g s t).1 = [] ∧ (run_dijkstra g s t).2.1 = (⊤ : WithTop W)) ∧
    (s = t →
      dijkstra_path g s t = ([s], ((0 : W) : WithTop W)) ∧
      run_dijkstra g s t = ([s], ((0 : W) : WithTop W), 1, 0)) ∧
    (s ≠ t → (dijkstra_path g s t).1 ≠ [] →
      2 ≤ (dijkstra_path g s t).1.length) ∧
    ((run_dijkstra g s t).1 = (dijkstra_path g s t).1 ∧
      (run_dijkstra g s t).2.1 = (dijkstra_path g s t).2) ∧
    (([] : List String) ≠ [s] ∧
      ∀ p : List String, 2 ≤ p.length → p ≠ [] ∧ p ≠ [s]) := by
  refine ⟨?_, ?_, ?_, ?_, ?_⟩
  · intro hnr
    have hreach := dijkstraLoop_reach g s t (dijkstraFuel g)
      [((0 : W), s)] [(s, 0)] [] [] 0
      (by
        intro q hq
        rcases List.mem_cons.mp hq with rfl | h
        · exact Reach.refl
        · cases h)
      (by
        intro e he
        rcases List.mem_cons.mp he with rfl | h
        · exact Reach.refl
        · cases h)
    have hnone : lookupA (dijkstraRun g s t).1 t = none := by
      cases hl : lookupA (dijkstraRun g s t).1 t with
      | none => rfl
      | some v =>
        obtain ⟨p, hp, hk⟩ := lookupA_some_key hl
        exact absurd (hk ▸ hreach p hp) hnr
    refine ⟨?_, ?_, ?_⟩
    · simp only [dijkstra_path, hnone]
    · simp only [run_dijkstra, hnone]
    · simp only [run_dijkstra, hnone]
  · intro h
    subst h
    have hrun := dijkstraRun_self g s
    constructor
    · simp [dijkstra_path, hrun, lookupA, rebuildPath]
    · simp [run_dijkstra, hrun, lookupA, rebuildPath]
  · intro hst hne
    have hinv := dijkstraLoop_prev g s t (dijkstraFuel g)
      [((0 : W), s)] [(s, 0)] [] [] 0
      (by
        intro e he
        rcases List.mem_cons.mp he with rfl | h
        · exact Or.inl rfl
        · cases h)
    have hinv' : DistPrevInv s (dijkstraRun g s t).1 (dijkstraRun g s t).2.1 := hinv
    cases hl : lookupA (dijkstraRun g s t).1 t with
    | none =>
      exact absurd (by simp only [dijkstra_path, hl]) hne
    | some dg =>
      obtain ⟨p, hp, hk⟩ := lookupA_some_key hl
      rcases hinv' p hp with h1 | ⟨pr, hpr, hpr1⟩
      · exact absurd (h1.symm.trans hk) hst
      · obtain ⟨v, hv⟩ := lookupA_isSome_of_key ⟨pr, hpr, hpr1.trans hk⟩
        have hlen : 2 ≤ (rebuildPath (dijkstraRun g s t).2.1 s
            ((dijkstraRun g s t).2.1.length + 1) t [t]).length := by
          unfold rebuildPath
          rw [if_neg (Ne.symm hst), hv]
          show 2 ≤ (rebuildPath (dijkstraRun g s t).2.1 s
            (dijkstraRun g s t).2.1.length v ([t] ++ [v])).length
          exact le_trans (by simp) (rebuildPath_length _ _ _ v ([t] ++ [v]))
        simp only [dijkstra_path, hl, List.length_reverse]
        exact hlen
  · cases hl : lookupA (dijkstraRun g s t).1 t with
    | none => exact ⟨by simp [run_dijkstra, dijkstra_path, hl],
        by simp [run_dijkstra, dijkstra_path, hl]⟩
    | some dg => exact ⟨by simp [run_dijkstra, dijkstra_path, hl],
        by simp [run_dijkstra, dijkstra_path, hl]⟩
  · refine ⟨by simp, fun p hp => ⟨?_, ?_⟩⟩
    · rintro rfl
      have h0 : (2 : ℕ) ≤ 0 := by simpa using hp
      omega
    · rintro rfl
      have h1 : (2 : ℕ) ≤ 1 := by simpa using hp
      omega

/-- Witness for C4 on the concrete two-node graph `gAB`: both hypotheses of
`C4_dijkstra_outcomes` hold at `s = t = "A"`, and the degenerate run returns
the single-node path with distance 0 (in one step). -/
theorem C4_dijkstra_outcomes_witness :
    ("A" ∈ gAB.nodeNames ∧ "A" ∈ gAB.nodeNames) ∧
    dijkstra_path gAB "A" "A" = (["A"], ((0 : ℕ) : WithTop ℕ)) ∧
    run_dijkstra gAB "A" "A" = (["A"], ((0 : ℕ) : WithTop ℕ), 1, 0) :=
  ⟨⟨by decide, by decide⟩,
    (C4_dijkstra_outcomes gAB "A" "A" (by decide) (by decide)).2.1 rfl⟩

end C4Section


end SCRES
